import Mathlib

/-!
# A verification model of `socialcrawler.py`

This file gives a shallow embedding, in Lean 4, of the crawl-and-resolve engine
implemented by the class `EnhancedWebCrawler` of `socialcrawler.py`, together
with theorems settling the specification claims about that engine.

Modelling conventions:

* Python strings are modelled by `String` / `List Char`; all character-level
  operations (`str.lower`, substring `in`, `str.split`, …) are modelled by
  structurally recursive functions on `List Char` so that every definition is
  executable by kernel reduction.  Case folding is modelled for ASCII only.
* `urllib.parse` (`urlparse`, `urlunparse`, `parse_qs`, `unquote_plus`) is part
  of the Python standard library, not of the repository; it is modelled here
  after CPython's `Lib/urllib/parse.py` (3.11-era behaviour: the scheme must
  start with an ASCII letter, the characters tab/CR/LF are removed up front,
  and a netloc with unbalanced square brackets raises `ValueError`, modelled
  as `Except.error "Invalid IPv6 URL"`).  The validation of a *balanced*
  bracketed host (`_check_bracketed_host`, IPv6/IPvFuture literals) is
  modelled by a simplified executable validator: no claim exercises bracketed
  hosts beyond the existence of the error branch.
* Percent-decoding (`unquote_plus`) is modelled byte-wise; multi-byte UTF-8
  percent sequences are decoded per byte, which no claim exercises.
* The network (`requests` session, Selenium), HTML parsing (BeautifulSoup),
  `urljoin`, `tldextract`, and the relevance regexes are external
  collaborators of the engine; they enter the model as oracle fields of `Env`
  (`head`, `page`, `inScope`) and as the pre-extracted fields of `Page`
  (`redirectTargets` stands for the output of `extract_redirection_url`,
  `anchors` for the `urljoin`-resolved non-empty `href` attributes, in
  document order).
* `user_stopped` is initialised to `False` in `__init__` and never set
  anywhere in the file, so the model omits it.
* MD5 hashing of checked URLs (`url_fragments_checked`) is modelled by
  storing the URLs themselves (the model treats the hash as injective).
* The wall-clock `timestamp` field of a result record is omitted.
-/

namespace SocialCrawler

deriving instance DecidableEq for Except

/-! ## Python character and string primitives -/

/-- ASCII case folding of one character, as CPython's `str.lower` acts on
ASCII text (non-ASCII case folding is not exercised by any claim). -/
def pyLowerChar (c : Char) : Char :=
  if 65 ≤ c.toNat ∧ c.toNat ≤ 90 then Char.ofNat (c.toNat + 32) else c

/-- `str.lower` on a character list. -/
def pyLowerL (l : List Char) : List Char := l.map pyLowerChar

/-- `str.lower` on a string. -/
def pyLower (s : String) : String := String.mk (pyLowerL s.toList)

/-- Python's substring test `needle in haystack`. -/
def pySubstr (needle haystack : String) : Bool :=
  decide (needle.toList <:+: haystack.toList)

/-- Split a list at the first occurrence of `c`: returns the (``c``-free)
part before the first `c` and, if `c` occurs, the part after it. -/
def splitOnFirst (c : Char) : List Char → List Char × Option (List Char)
  | [] => ([], none)
  | x :: xs =>
    if x = c then ([], some xs)
    else
      let r := splitOnFirst c xs
      (x :: r.1, r.2)

/-- Python's `s.split(c, 1)` collapsed to a pair: when `c` does not occur the
second component is empty and the first is the whole list.  This is the shape
in which `urlsplit` uses `split('#', 1)` and `split('?', 1)`. -/
def splitPy (c : Char) (l : List Char) : List Char × List Char :=
  match splitOnFirst c l with
  | (pre, some rest) => (pre, rest)
  | (_, none) => (l, [])

/-- Split a list at the last occurrence of `c` (used to model
`url.rfind('/')`): `some (a, b)` with `l = a ++ c :: b` and `c ∉ b`. -/
def splitOnLast (c : Char) : List Char → Option (List Char × List Char)
  | [] => none
  | x :: xs =>
    match splitOnLast c xs with
    | some (a, b) => some (x :: a, b)
    | none => if x = c then some ([], xs) else none

/-- `str.split(c)` (all occurrences, keeping empty parts, as Python does). -/
def pySplitAllAux (c : Char) : List Char → List Char → List (List Char)
  | acc, [] => [acc.reverse]
  | acc, x :: xs =>
    if x = c then acc.reverse :: pySplitAllAux c [] xs
    else pySplitAllAux c (x :: acc) xs

/-- `str.split(c)`. -/
def pySplitAll (c : Char) (l : List Char) : List (List Char) :=
  pySplitAllAux c [] l

/-! ## A model of CPython `urllib.parse` -/

/-- The characters CPython removes from a URL before parsing
(`_UNSAFE_URL_BYTES_TO_REMOVE`). -/
def isUnsafeUrlChar (c : Char) : Bool := c = '\t' || c = '\r' || c = '\n'

/-- CPython `_WHATWG_C0_CONTROL_OR_SPACE`: `urlsplit` strips these from the
left of its input. -/
def isC0OrSpace (c : Char) : Bool := c.toNat ≤ 32

/-- CPython `scheme_chars`: ASCII letters, digits, `+`, `-`, `.`. -/
def isSchemeChar (c : Char) : Bool := c.isAlphanum || c = '+' || c = '-' || c = '.'

/-- Characters allowed to continue a netloc: everything up to `/`, `?`, `#`
(CPython `_splitnetloc`). -/
def isNetlocChar (c : Char) : Bool := !(c = '/' || c = '?' || c = '#')

/-- ASCII hexadecimal digit test. -/
def pyIsHexDigit (c : Char) : Bool :=
  c.isDigit || ('a' ≤ c ∧ c ≤ 'f') || ('A' ≤ c ∧ c ≤ 'F')

/-- Simplified validator for an IPv6 literal (hex groups separated by `:`,
with `::` compression).  It stands for CPython's `ipaddress.ip_address`
acceptance test inside `_check_bracketed_host`; zone ids and embedded IPv4
tails are not modelled, and no claim exercises this function. -/
def validIPv6 (l : List Char) : Bool :=
  let parts := pySplitAll ':' l
  l.all (fun c => pyIsHexDigit c || c = ':') &&
  parts.all (fun g => g.length ≤ 4) &&
  ((parts.count [] = 0 && parts.length = 8) ||
   (1 ≤ parts.count [] && parts.count [] ≤ 3 && parts.length ≤ 9))

/-- Model of CPython `_check_bracketed_host`: an IPvFuture literal
`v<hex>+.<nonempty>` or an IPv6 literal is accepted, anything else raises. -/
def validBracketedHost (h : List Char) : Bool :=
  match h with
  | 'v' :: rest =>
    match splitOnFirst '.' rest with
    | (hx, some tail) => !hx.isEmpty && hx.all pyIsHexDigit && !tail.isEmpty
    | (_, none) => false
  | _ => validIPv6 h

/-- The bracket checks CPython `urlsplit` performs on a freshly split netloc:
unbalanced square brackets raise `ValueError("Invalid IPv6 URL")`, balanced
brackets must enclose a valid IPv6/IPvFuture host. -/
def netlocChecks (nl : List Char) : Except String Unit :=
  if ('[' ∈ nl) ≠ (']' ∈ nl) then .error "Invalid IPv6 URL"
  else if '[' ∈ nl ∧ ']' ∈ nl then
    let bh := ((nl.dropWhile (fun c => c ≠ '[')).drop 1).takeWhile (fun c => c ≠ ']')
    if validBracketedHost bh then .ok () else .error "invalid bracketed host"
  else .ok ()

/-- The result of `urlparse`: the six components of a URL. -/
structure URLParts where
  scheme : List Char
  netloc : List Char
  path : List Char
  params : List Char
  query : List Char
  fragment : List Char
deriving Repr, DecidableEq

/-- The guard CPython applies to the text before the first `:` of a URL:
non-empty, first character an ASCII letter, the rest scheme characters. -/
def schemeGuard : List Char → Bool
  | [] => false
  | c :: cs => c.isAlpha && cs.all isSchemeChar

/-- The scheme-splitting step of CPython `urlsplit`: the text before the
first `:` is a scheme when it passes `schemeGuard`; it is then lower-cased. -/
def schemeSplit (u : List Char) : List Char × List Char :=
  match splitOnFirst ':' u with
  | (c :: cs, some rest) =>
    if schemeGuard (c :: cs) then (pyLowerL (c :: cs), rest) else ([], u)
  | _ => ([], u)

/-- The cleaning CPython `urlsplit` applies first: strip C0 controls and
spaces from the left, then remove tab/CR/LF everywhere. -/
def pyCleanUrl (l : List Char) : List Char :=
  (l.dropWhile isC0OrSpace).filter (fun c => !isUnsafeUrlChar c)

/-- The netloc-splitting step of CPython `urlsplit`: when the remainder
starts with `//`, the netloc extends to the next `/`, `?` or `#`. -/
def netlocSplit (u : List Char) : List Char × List Char :=
  match u with
  | '/' :: '/' :: r => (r.takeWhile isNetlocChar, r.dropWhile isNetlocChar)
  | _ => ([], u)

/-- Model of CPython `urlsplit` (without params): strip C0 controls and
spaces from the left, remove tab/CR/LF everywhere, then split off scheme,
netloc, fragment and query.  Errors model the `ValueError`s raised on bad
bracketed netlocs.  (`_checknetloc`, which only concerns non-ASCII netlocs
whose NFKC normalization changes, is a no-op on ASCII input and is not
modelled.) -/
def pyUrlsplitL (url : List Char) : Except String URLParts :=
  let u := pyCleanUrl url
  let s := schemeSplit u
  let n := netlocSplit s.2
  match netlocChecks n.1 with
  | .error e => .error e
  | .ok _ =>
    let f := splitPy '#' n.2
    let q := splitPy '?' f.1
    .ok ⟨s.1, n.1, q.1, [], q.2, f.2⟩

/-- CPython `uses_params`: the schemes for which `urlparse` splits params
off the path (note that the empty scheme is included). -/
def usesParams : List String :=
  ["", "ftp", "hdl", "prospero", "http", "imap", "https", "shttp", "rtsp",
   "rtsps", "rtspu", "sip", "sips", "mms", "sftp", "tel"]

/-- CPython `uses_netloc`: the schemes for which `urlunsplit` re-inserts a
`//` even when the netloc is empty. -/
def usesNetloc : List String :=
  ["", "ftp", "http", "gopher", "nntp", "telnet", "imap", "wais", "file",
   "mms", "https", "shttp", "snews", "prospero", "rtsp", "rtsps", "rtspu",
   "rsync", "svn", "svn+ssh", "sftp", "nfs", "git", "git+ssh", "ws", "wss"]

/-- CPython `_splitparams`: split params off the last path segment. -/
def splitparamsL (url : List Char) : List Char × List Char :=
  if '/' ∈ url then
    match splitOnLast '/' url with
    | some (a, b) =>
      match splitOnFirst ';' b with
      | (b1, some b2) => (a ++ '/' :: b1, b2)
      | (_, none) => (url, [])
    | none => (url, [])
  else
    match splitOnFirst ';' url with
    | (a, some b) => (a, b)
    | (_, none) => (url, [])

/-- Model of CPython `urlparse` on a character list. -/
def pyUrlparseL (url : List Char) : Except String URLParts :=
  match pyUrlsplitL url with
  | .error e => .error e
  | .ok p =>
    if String.mk p.scheme ∈ usesParams ∧ ';' ∈ p.path then
      let s := splitparamsL p.path
      .ok { p with path := s.1, params := s.2 }
    else .ok p

/-- The path with the params glued back by `;`, the first step of
`urlunparse`. -/
def glueParams (p : URLParts) : List Char :=
  if p.params ≠ [] then p.path ++ ';' :: p.params else p.path

/-- The query with its `?` delimiter, as `urlunsplit` reattaches it (nothing
when the query is empty). -/
def queryPart (p : URLParts) : List Char :=
  if p.query ≠ [] then '?' :: p.query else []

/-- Model of CPython `urlunparse` (via `urlunsplit`): glue params back with
`;`, re-insert `//` before the netloc — also, for a scheme in `uses_netloc`,
before a path that does not already start with `//` — then reattach scheme,
query and fragment. -/
def pyUrlunparseL (p : URLParts) : List Char :=
  let url0 := glueParams p
  let url1 :=
    if p.netloc ≠ [] ∨
        (p.scheme ≠ [] ∧ String.mk p.scheme ∈ usesNetloc ∧
         url0.take 2 ≠ ['/', '/']) then
      '/' :: '/' :: p.netloc ++
        (if url0 ≠ [] ∧ url0.take 1 ≠ ['/'] then '/' :: url0 else url0)
    else url0
  let url2 := if p.scheme ≠ [] then p.scheme ++ ':' :: url1 else url1
  let url3 := if p.query ≠ [] then url2 ++ '?' :: p.query else url2
  if p.fragment ≠ [] then url3 ++ '#' :: p.fragment else url3

/-- Replace the fragment component by the empty string, as
`normalize_url` does when it reassembles the URL. -/
def clearFragment (p : URLParts) : URLParts := { p with fragment := [] }

/-- Model of CPython `parse_qsl` with default arguments: split the query on
`&`, keep only pairs that contain `=` with a non-empty value, and
percent-decode names and values (`unquote_plus`). -/
def pyUnquoteL : List Char → List Char
  | [] => []
  | '%' :: a :: b :: rest2 =>
    if pyIsHexDigit a && pyIsHexDigit b then
      Char.ofNat (16 * (if a.isDigit then a.toNat - 48
                        else if 'a' ≤ a then a.toNat - 87 else a.toNat - 55) +
                  (if b.isDigit then b.toNat - 48
                   else if 'a' ≤ b then b.toNat - 87 else b.toNat - 55)) ::
        pyUnquoteL rest2
    else '%' :: pyUnquoteL (a :: b :: rest2)
  | x :: xs => x :: pyUnquoteL xs

/-- `unquote_plus`: `+` becomes a space, then percent sequences decode. -/
def pyUnquotePlusL (l : List Char) : List Char :=
  pyUnquoteL (l.map (fun c => if c = '+' then ' ' else c))

/-- Model of CPython `parse_qsl` (default `keep_blank_values=False`). -/
def parseQsl (qs : List Char) : List (String × String) :=
  (pySplitAll '&' qs).filterMap fun nv =>
    match splitOnFirst '=' nv with
    | (n, some (v0 :: vs)) =>
      some (String.mk (pyUnquotePlusL n), String.mk (pyUnquotePlusL (v0 :: vs)))
    | _ => none

/-- Insert one name/value pair into a `parse_qs` dictionary, preserving the
first-insertion order of the keys as a Python `dict` does. -/
def qsInsert (d : List (String × List String)) (k v : String) :
    List (String × List String) :=
  match d with
  | [] => [(k, [v])]
  | (k0, vs) :: rest =>
    if k0 = k then (k0, vs ++ [v]) :: rest else (k0, vs) :: qsInsert rest k v

/-- Model of CPython `parse_qs`: a key-ordered association of each name with
its list of values. -/
def parse_qs (qs : List Char) : List (String × List String) :=
  (parseQsl qs).foldl (fun d kv => qsInsert d kv.1 kv.2) []

/-- `param in query_params` on a `parse_qs` dictionary. -/
def qsHas (d : List (String × List String)) (k : String) : Bool :=
  d.any (fun kv => kv.1 = k)

/-- `query_params[param][0]` on a `parse_qs` dictionary (total: returns the
empty string when absent, which never happens at the call sites since
`parse_qs` only produces non-empty value lists). -/
def qsFirst (d : List (String × List String)) (k : String) : String :=
  match d.find? (fun kv => kv.1 = k) with
  | some kv => kv.2.headD ""
  | none => ""

/-! ## `normalize_url` (source lines 134–140) -/

/-- `EnhancedWebCrawler.normalize_url`: reassemble the parsed URL with an
empty fragment, then strip one trailing slash.  The `Except` layer models
the `ValueError` that `urlparse` can raise (there is no handler inside
`normalize_url`, so the error propagates to its caller). -/
def normalize_url (url : String) : Except String String :=
  match pyUrlparseL url.toList with
  | .error e => .error e
  | .ok p =>
    let normalized := pyUrlunparseL (clearFragment p)
    .ok (String.mk (if normalized.getLast? = some '/' then normalized.dropLast
                    else normalized))

/-! ## `looks_like_affiliate_url` (source lines 142–187) -/

/-- `self.known_shorteners`. -/
def knownShorteners : List String :=
  ["bit.ly", "tinyurl.com", "goo.gl", "t.co", "ow.ly", "is.gd",
   "buff.ly", "adf.ly", "bit.do", "mcaf.ee", "su.pr", "tiny.cc",
   "tidd.ly", "redirectingat.com", "go.redirectingat.com", "go.skimresources.com"]

/-- `self.awin_domains`. -/
def awinDomains : List String := ["awin1.com", "zenaps.com"]

/-- `self.potential_affiliate_domains`. -/
def potentialAffiliateDomains : List String :=
  ["track.", "go.", "click.", "buy.", "shop.", "link.", "visit.",
   "affiliate.", "partners.", "tracking.", "redirect.", "ref."]

/-- `self.potential_affiliate_paths`. -/
def potentialAffiliatePaths : List String :=
  ["/visit", "/go", "/goto", "/redirect", "/click", "/buy", "/shop",
   "/link", "/affiliate", "/partner", "/tracking", "/ref", "/out"]

/-- `self.potential_affiliate_params`. -/
def potentialAffiliateParams : List String :=
  ["site", "url", "link", "goto", "target", "redirect", "redirect_to",
   "dest", "destination", "u", "to", "out", "away", "href"]

/-- The local `affiliate_params` list of `looks_like_affiliate_url`. -/
def affiliateParamNames : List String :=
  ["aff", "affid", "affiliateid", "ref", "refid", "referral",
   "referralid", "partner", "partnerId", "utm_source"]

/-- The local `tracking_params` list of `looks_like_affiliate_url`. -/
def trackingParamNames : List String :=
  ["utm_", "ref", "aff", "source", "campaign", "medium"]

/-- `EnhancedWebCrawler.looks_like_affiliate_url` lines 142–187, decision
branches in source order.  Python's consecutive `return True` statements are
modelled by a nested conditional; the block guarded by the awin domains only
returns when one of its two inner conditions fires, otherwise control falls
through, hence the conjunction in its branch condition.  The `Except` layer
models the `ValueError` that `urlparse(url.lower())` can raise. -/
def looks_like_affiliate_url (keywords : List String) (url : String) :
    Except String Bool :=
  match pyUrlparseL (pyLowerL url.toList) with
  | .error e => .error e
  | .ok p =>
    let netloc : String := String.mk p.netloc
    let path : String := String.mk p.path
    if knownShorteners.any (fun s => pySubstr s netloc) then .ok true
    else if potentialAffiliateDomains.any (fun s => pySubstr s netloc) then .ok true
    else if awinDomains.any (fun s => pySubstr s netloc) &&
            (let qp := parse_qs p.query
             (qsHas qp "v" && qsFirst qp "v" = "87121") ||
             (qsHas qp "awinmid" && qsFirst qp "awinmid" = "87121")) then .ok true
    else if potentialAffiliatePaths.any (fun s => pySubstr s path) then .ok true
    else
      let qp := parse_qs p.query
      if affiliateParamNames.any (fun a => qsHas qp a) then .ok true
      else if potentialAffiliateParams.any (fun a =>
          qsHas qp a && keywords.any (fun kw => pySubstr kw (pyLower (qsFirst qp a)))) then
        .ok true
      else if 2 ≤ qp.countP (fun kv => trackingParamNames.any (fun t => pySubstr t kv.1)) then
        .ok true
      else if qsHas qp "awc" && pySubstr "87121" (qsFirst qp "awc") then .ok true
      else .ok false

/-! ## `get_matched_keywords` (source lines 258–266) -/

/-- `EnhancedWebCrawler.get_matched_keywords`.  `none` models a non-string
argument; the empty string is falsy in Python, so both return `[]` through
the `if not text or not isinstance(text, str)` guard.  The loop appends, in
keyword order, each keyword whose lower-cased form occurs in the lower-cased
text. -/
def get_matched_keywords (keywords : List String) (text : Option String) :
    List String :=
  match text with
  | none => []
  | some t =>
    if t = "" then []
    else keywords.filter (fun kw => pySubstr (pyLower kw) (pyLower t))

/-! ## `resolve_redirects` (source lines 283–293) -/

/-- `EnhancedWebCrawler.resolve_redirects`.  The oracle `head` models
`self.session.head(url, allow_redirects=True).url`: `some f` is the
transport-reported final URL after the HTTP client followed any HTTP-level
redirects, `none` models a raised `requests.RequestException`.  The cache is
the `redirect_cache` dictionary, modelled as an association list (new entry
at the head).  The function returns the final URL and the updated cache. -/
def resolve_redirects (head : String → Option String)
    (cache : List (String × String)) (url : String) :
    String × List (String × String) :=
  match cache.lookup url with
  | some v => (v, cache)
  | none =>
    match head url with
    | some final_url => (final_url, (url, final_url) :: cache)
    | none => (url, (url, url) :: cache)

/-- Modelled from the spec: the redirect resolver of §4.4, which the source
does not implement (its `resolve_redirects` makes a single `HEAD` call and
never inspects a body).  `httpNext url` is the single HTTP-level hop (a 3xx
`Location`), `contentNext url` is the content-level target found in the
fetched body (meta-refresh `url=` or a script-navigation idiom); `fuel` is
the remaining redirect budget (`max_depth` minus the current depth).  On
exhausted depth or on a URL already in the current resolution path the last
known URL is returned. -/
def resolve_spec (httpNext contentNext : String → Option String) :
    Nat → List String → String → String
  | 0, _, url => url
  | fuel + 1, path, url =>
    if url ∈ path then url
    else
      match httpNext url with
      | some nxt => resolve_spec httpNext contentNext fuel (url :: path) nxt
      | none =>
        match contentNext url with
        | some nxt => resolve_spec httpNext contentNext fuel (url :: path) nxt
        | none => url

/-- Modelled from the spec: the classifier of §4.2, decision rules 1–6 in
order, with the host tests read literally ("equals or is a subdomain-suffix
of" a shortener, "starts with" an affiliate-prefix token). -/
def is_candidate_spec (url : String) : Bool :=
  match pyUrlparseL (pyLowerL url.toList) with
  | .error _ => false
  | .ok p =>
    let host := String.mk p.netloc
    let qp := parse_qs p.query
    (knownShorteners.any (fun d => host = d ||
       decide ((("." ++ d).toList) <:+ host.toList))) ||
    (awinDomains.any (fun d => host = d ||
       decide ((("." ++ d).toList) <:+ host.toList)) &&
     ((qsHas qp "v" && qsFirst qp "v" = "87121") ||
      (qsHas qp "awinmid" && qsFirst qp "awinmid" = "87121"))) ||
    (potentialAffiliateDomains.any (fun t => decide (t.toList <+: host.toList))) ||
    (potentialAffiliatePaths.any (fun s => pySubstr s (String.mk p.path))) ||
    (potentialAffiliateParams.any (fun a => qsHas qp a)) ||
    (2 ≤ trackingParamNames.countP (fun t => qp.any (fun kv => pySubstr t kv.1)))

/-! ## The crawl engine: state, `process_url`, `start_crawling` -/

/-- One entry of `self.results` (the dictionary built by `add_result`).
`keywords` keeps the matched keyword list that the source joins with
`', '` into its `keyword` field; `attr` is the source's `attribute` key;
the wall-clock `timestamp` is omitted. -/
structure PyResult where
  source_url : String
  matched_url : String
  keywords : List String
  location_type : String
  element : String
  attr : String
  content : String
deriving Repr, DecidableEq

/-- The data the engine extracts from one fetched page.  `html` is the
rendered `page_source`; `redirectTargets` stands for the output of
`extract_redirection_url` (BeautifulSoup + regex extraction, external to the
model); `anchors` stands for the `urljoin`-resolved non-empty `href`
attributes of the page's anchor tags, in document order. -/
structure Page where
  html : String
  redirectTargets : List String
  anchors : List String

/-- The external collaborators of the engine.  `head` models the HTTP client
used by `resolve_redirects`; `page url` models the Selenium fetch-and-render
of `process_url` (`none` is a raised exception before any parsing);
`inScope` models
`(is_same_domain(u) or is_subdomain_of(netloc(u))) and is_relevant_path(u)`,
whose ingredients (`tldextract`, regex path filtering) are external. -/
structure Env where
  head : String → Option String
  page : String → Option Page
  inScope : String → Bool

/-- The per-crawl configuration: keyword list, `max_pages`, start URL. -/
structure Cfg where
  keywords : List String
  maxPages : Nat
  startUrl : String

/-- The mutable state of one `EnhancedWebCrawler` instance during a crawl.
`enqueuedHistory` is instrumentation only: it records every URL ever placed
on the queue (the seed at reset time plus each append), is written exactly
when `queue` is appended to, and is read by no operation of the engine. -/
structure CrawlState where
  visited : List String
  queue : List String
  pagesCrawled : Nat
  results : List PyResult
  checked : List String
  redirectCache : List (String × String)
  internalLinks : List String
  enqueuedHistory : List String
deriving Repr, DecidableEq

/-- `EnhancedWebCrawler.add_result` (lines 268–281): append one record. -/
def add_result (st : CrawlState) (source_url matched_url element attr content : String)
    (keywords : List String) (location_type : String) : CrawlState :=
  { st with results :=
      st.results ++ [⟨source_url, matched_url, keywords, location_type,
                      element, attr, content⟩] }

/-- `EnhancedWebCrawler.check_url_for_keywords` (lines 225–256).  The `Bool`
component is `false` when `looks_like_affiliate_url` raised (its `urlparse`
call has no handler here), in which case the exception propagates to
`process_url` with all state mutations made so far kept. -/
def check_url_for_keywords (cfg : Cfg) (env : Env) (st : CrawlState)
    (url source_url : String) : CrawlState × Bool :=
  if url = "" then (st, true)
  else if url ∈ st.checked then (st, true)
  else
    let st1 := { st with checked := st.checked ++ [url] }
    let mk := get_matched_keywords cfg.keywords (some url)
    let st2 := if mk ≠ [] then
        add_result st1 source_url url "url" "href" url mk "direct_url"
      else st1
    match looks_like_affiliate_url cfg.keywords url with
    | .error _ => (st2, false)
    | .ok false => (st2, true)
    | .ok true =>
      let r := resolve_redirects env.head st2.redirectCache url
      let st3 := { st2 with redirectCache := r.2 }
      if r.1 ≠ url then
        let mkf := get_matched_keywords cfg.keywords (some r.1)
        if mkf ≠ [] then
          (add_result st3 source_url r.1 "url" "href"
            ("Redirected from: " ++ url ++ " to: " ++ r.1) mkf "redirected_url", true)
        else (st3, true)
      else (st3, true)

/-- The `for redirect_url in redirect_urls` loop of `process_url`
(lines 340–342): check each redirect target, aborting on an exception. -/
def checkTargets (cfg : Cfg) (env : Env) (source_url : String) :
    CrawlState → List String → CrawlState × Bool
  | st, [] => (st, true)
  | st, t :: ts =>
    match check_url_for_keywords cfg env st t source_url with
    | (st1, true) => checkTargets cfg env source_url st1 ts
    | (st1, false) => (st1, false)

/-- The anchor loop of `process_url` (lines 343–353): normalize each
`urljoin`-resolved href, collect in-scope links (also into
`internal_links`), and keyword-check every anchor.  A `normalize_url`
error models the propagated `ValueError`, which makes `process_url`
return no links while keeping the state mutated so far. -/
def processAnchors (cfg : Cfg) (env : Env) (source_url : String) :
    CrawlState → List String → List String → CrawlState × List String × Bool
  | st, links, [] => (st, links, true)
  | st, links, a :: rest =>
    match normalize_url a with
    | .error _ => (st, links, false)
    | .ok absolute =>
      let p := if env.inScope absolute then
          ({ st with internalLinks := st.internalLinks ++ [absolute] },
           links ++ [absolute])
        else (st, links)
      match check_url_for_keywords cfg env p.1 absolute source_url with
      | (st2, true) => processAnchors cfg env source_url st2 p.2 rest
      | (st2, false) => (st2, p.2, false)

/-- `EnhancedWebCrawler.process_url` (lines 295–358): returns the updated
state and the list of in-scope links found on the page.  Any exception
inside the `try` block (a failed fetch, or a propagated `ValueError` from
`normalize_url` / `looks_like_affiliate_url`) is caught and yields `[]`
links, with all state mutations made before the exception kept. -/
def process_url (cfg : Cfg) (env : Env) (st : CrawlState) (url : String) :
    CrawlState × List String :=
  if url ∈ st.visited ∨ cfg.maxPages ≤ st.pagesCrawled ∨ url = "" then (st, [])
  else
    let st1 := { st with visited := st.visited ++ [url],
                         pagesCrawled := st.pagesCrawled + 1 }
    match env.page url with
    | none => (st1, [])
    | some pg =>
      let mk := get_matched_keywords cfg.keywords (some pg.html)
      let st2 := if mk ≠ [] then
          add_result st1 url url "page_content" "text"
            (String.mk (pg.html.toList.take 200)) mk "content"
        else st1
      match checkTargets cfg env url st2 pg.redirectTargets with
      | (st3, false) => (st3, [])
      | (st3, true) =>
        match processAnchors cfg env url st3 [] pg.anchors with
        | (st4, links, true) => (st4, links)
        | (st4, _, false) => (st4, [])

/-- The enqueueing loop of `start_crawling` (lines 367–370): a link is
appended only when it is neither visited nor already queued and the page
budget is not yet reached.  `enqueuedHistory` records each append. -/
def enqueueLinks (cfg : Cfg) (st : CrawlState) (links : List String) : CrawlState :=
  links.foldl
    (fun s l =>
      if l ∉ s.visited ∧ l ∉ s.queue ∧ s.pagesCrawled < cfg.maxPages then
        { s with queue := s.queue ++ [l], enqueuedHistory := s.enqueuedHistory ++ [l] }
      else s)
    st

/-- The loop guard of `start_crawling` (line 364): the crawl is done when
the queue is empty or the page budget is reached (`user_stopped` is never
set in the source). -/
def crawlDone (cfg : Cfg) (st : CrawlState) : Bool :=
  st.queue.isEmpty || cfg.maxPages ≤ st.pagesCrawled

/-- One iteration of the `while` loop of `start_crawling` (lines 364–373):
pop the queue head, process it, enqueue the returned links.  On a done
state the step is the identity, so the loop is `crawlStep` iterated to a
fixed point. -/
def crawlStep (cfg : Cfg) (env : Env) (st : CrawlState) : CrawlState :=
  match st.queue with
  | [] => st
  | url :: rest =>
    if cfg.maxPages ≤ st.pagesCrawled then st
    else
      let r := process_url cfg env { st with queue := rest } url
      enqueueLinks cfg r.1 r.2

/-- `EnhancedWebCrawler.reset_state` plus the seeding done in `__init__`:
the queue holds the start URL, everything else is empty.  (The special
Twitter seed rewriting of `_detect_social_media` is outside the model:
`startUrl` is the effective seed.) -/
def initState (cfg : Cfg) : CrawlState :=
  ⟨[], [cfg.startUrl], 0, [], [], [], [], [cfg.startUrl]⟩

/-- The crawl after `n` loop iterations, starting from the reset state. -/
def crawlRun (cfg : Cfg) (env : Env) (n : Nat) : CrawlState :=
  (crawlStep cfg env)^[n] (initState cfg)

/-- The shape every record appended by `add_result` has: a non-empty matched
keyword list and one of the three `location_type` strings the source
actually passes (`'direct_url'`, `'redirected_url'`, `'content'`). -/
def goodResult (r : PyResult) : Bool :=
  !r.keywords.isEmpty &&
  (r.location_type == "direct_url" || r.location_type == "redirected_url" ||
   r.location_type == "content")

/-- The queue discipline invariant of the crawl loop: the ghost enqueue
history is duplicate-free, the queue and visited list are too, both only
hold URLs that were once enqueued, and every enqueued URL is accounted for
(still queued, visited, or the empty string, which `process_url` skips
without visiting). -/
def QueueInv (st : CrawlState) : Prop :=
  st.enqueuedHistory.Nodup ∧ st.visited.Nodup ∧ st.queue.Nodup ∧
  (∀ u ∈ st.queue, u ∈ st.enqueuedHistory) ∧
  (∀ u ∈ st.visited, u ∈ st.enqueuedHistory) ∧
  (∀ u ∈ st.enqueuedHistory, u ∈ st.visited ∨ u ∈ st.queue ∨ u = "")

/-! Concrete crawl fixtures used to evaluate the model on closed inputs. -/

/-- A crawl budget of one page, no keywords, a fixed seed. -/
def cfg4 : Cfg := ⟨[], 1, "http://seed.example/start"⟩

/-- The seed page carries ten in-scope links and nothing else; every URL is
in scope, no request ever redirects. -/
def env4 : Env :=
  ⟨fun _ => none,
   fun u =>
     if u = "http://seed.example/start" then
       some ⟨"", [],
         ["http://seed.example/p1", "http://seed.example/p2",
          "http://seed.example/p3", "http://seed.example/p4",
          "http://seed.example/p5", "http://seed.example/p6",
          "http://seed.example/p7", "http://seed.example/p8",
          "http://seed.example/p9", "http://seed.example/p10"]⟩
     else none,
   fun _ => true⟩

/-- Like `env4` but with the empty string out of scope, as the in-scope
test of the source always reports for `""`. -/
def env3 : Env :=
  ⟨fun _ => none,
   fun u =>
     if u = "http://seed.example/start" then
       some ⟨"", [],
         ["http://seed.example/p1", "http://seed.example/p2"]⟩
     else none,
   fun u => u != ""⟩

/-- One keyword, budget one, same seed. -/
def cfg6 : Cfg := ⟨["guide"], 1, "http://seed.example/start"⟩

/-- The seed page's rendered text contains the keyword; no links. -/
def env6 : Env :=
  ⟨fun _ => none,
   fun u =>
     if u = "http://seed.example/start" then
       some ⟨"Travel guide page", [], []⟩
     else none,
   fun _ => false⟩

/-- The invariants that every component tuple produced by `pyUrlparseL`
satisfies; they are exactly what is needed to show that `pyUrlunparseL`
reassembles a string that re-parses consistently. -/
structure ParseShape (p : URLParts) : Prop where
  scheme_shape : p.scheme = [] ∨ schemeGuard p.scheme = true
  scheme_lower : pyLowerL p.scheme = p.scheme
  netloc_chars : ∀ c ∈ p.netloc, isNetlocChar c = true
  netloc_ok : netlocChecks p.netloc = Except.ok ()
  path_no_hash : '#' ∉ p.path
  path_no_q : '?' ∉ p.path
  params_no_hash : '#' ∉ p.params
  params_no_q : '?' ∉ p.params
  params_no_slash : '/' ∉ p.params
  query_no_hash : '#' ∉ p.query
  safe_scheme : ∀ c ∈ p.scheme, isUnsafeUrlChar c = false
  safe_netloc : ∀ c ∈ p.netloc, isUnsafeUrlChar c = false
  safe_path : ∀ c ∈ p.path, isUnsafeUrlChar c = false
  safe_params : ∀ c ∈ p.params, isUnsafeUrlChar c = false
  safe_query : ∀ c ∈ p.query, isUnsafeUrlChar c = false
  netloc_path : p.netloc ≠ [] → (p.path = [] ∧ p.params = []) ∨ p.path.take 1 = ['/']
  params_scheme : p.params ≠ [] → String.mk p.scheme ∈ usesParams
  params_resplit : String.mk p.scheme ∈ usesParams → ';' ∈ glueParams p →
      splitparamsL (glueParams p) = (p.path, p.params)
  empty_noscheme : p.scheme = [] → p.netloc = [] →
      schemeSplit (glueParams p ++ queryPart p) = ([], glueParams p ++ queryPart p)
  empty_head : p.scheme = [] → p.netloc = [] →
      (glueParams p ++ queryPart p).dropWhile isC0OrSpace = glueParams p ++ queryPart p

/-- The scheme with its `:` delimiter, as `urlunsplit` emits it. -/
def schemePart (p : URLParts) : List Char :=
  if p.scheme ≠ [] then p.scheme ++ [':'] else []

/-- The glued path after `urlunsplit`'s conditional `/`-prepend (the inner
`if` of its netloc branch). -/
def slashGlue (p : URLParts) : List Char :=
  if glueParams p ≠ [] ∧ (glueParams p).take 1 ≠ ['/'] then '/' :: glueParams p
  else glueParams p

/-- The portion of `urlunsplit`'s output between the scheme delimiter and
the query delimiter. -/
def netBody (p : URLParts) : List Char :=
  if p.netloc ≠ [] ∨ (p.scheme ≠ [] ∧ String.mk p.scheme ∈ usesNetloc ∧
      (glueParams p).take 2 ≠ ['/', '/']) then
    '/' :: '/' :: (p.netloc ++ slashGlue p)
  else glueParams p

/-! ## Character-level lemmas -/

theorem char_eq_iff_toNat (a b : Char) : a = b ↔ a.toNat = b.toNat := by
  constructor
  · rintro rfl; rfl
  · intro h
    exact Char.eq_of_val_eq (UInt32.eq_of_toBitVec_eq (BitVec.eq_of_toNat_eq h))

theorem isUpper_iff (c : Char) : c.isUpper = true ↔ 65 ≤ c.toNat ∧ c.toNat ≤ 90 := by
  simp [Char.isUpper, Char.le_def, Char.toNat, UInt32.le_def, BitVec.le_def, UInt32.toNat]

theorem isLower_iff (c : Char) : c.isLower = true ↔ 97 ≤ c.toNat ∧ c.toNat ≤ 122 := by
  simp [Char.isLower, Char.le_def, Char.toNat, UInt32.le_def, BitVec.le_def, UInt32.toNat]

theorem isDigit_iff (c : Char) : c.isDigit = true ↔ 48 ≤ c.toNat ∧ c.toNat ≤ 57 := by
  simp [Char.isDigit, Char.le_def, Char.toNat, UInt32.le_def, BitVec.le_def, UInt32.toNat]

theorem isAlpha_iff (c : Char) :
    c.isAlpha = true ↔ (65 ≤ c.toNat ∧ c.toNat ≤ 90) ∨ (97 ≤ c.toNat ∧ c.toNat ≤ 122) := by
  simp [Char.isAlpha, isUpper_iff, isLower_iff]

theorem isAlphanum_iff (c : Char) :
    c.isAlphanum = true ↔ (65 ≤ c.toNat ∧ c.toNat ≤ 90) ∨ (97 ≤ c.toNat ∧ c.toNat ≤ 122) ∨
      (48 ≤ c.toNat ∧ c.toNat ≤ 57) := by
  simp [Char.isAlphanum, isAlpha_iff, isDigit_iff, or_assoc]

theorem toNat_ofNat_of_valid (n : Nat) (h : n < 55296) : (Char.ofNat n).toNat = n := by
  have hv : n.isValidChar := Or.inl h
  unfold Char.ofNat
  rw [dif_pos hv]
  simp [Char.ofNatAux, Char.toNat, UInt32.toNat, BitVec.toNat_ofNatLt]

theorem pyLowerChar_toNat (c : Char) :
    (pyLowerChar c).toNat =
      if 65 ≤ c.toNat ∧ c.toNat ≤ 90 then c.toNat + 32 else c.toNat := by
  unfold pyLowerChar
  split
  · next h => rw [toNat_ofNat_of_valid _ (by omega)]
  · rfl

theorem pyLowerChar_idem (c : Char) : pyLowerChar (pyLowerChar c) = pyLowerChar c := by
  rw [char_eq_iff_toNat, pyLowerChar_toNat, pyLowerChar_toNat]
  by_cases h : 65 ≤ c.toNat ∧ c.toNat ≤ 90
  · simp only [if_pos h]; rw [if_neg (by omega)]
  · simp only [if_neg h]

theorem pyLowerChar_isAlpha (c : Char) (h : c.isAlpha = true) :
    (pyLowerChar c).isAlpha = true := by
  rw [isAlpha_iff] at h ⊢
  rw [pyLowerChar_toNat]
  split <;> omega

theorem pyLowerChar_isSchemeChar (c : Char) (h : isSchemeChar c = true) :
    isSchemeChar (pyLowerChar c) = true := by
  unfold isSchemeChar at h ⊢
  simp only [Bool.or_eq_true, isAlphanum_iff, decide_eq_true_eq, char_eq_iff_toNat] at h ⊢
  rw [pyLowerChar_toNat]
  have h43 : ('+' : Char).toNat = 43 := rfl
  have h45 : ('-' : Char).toNat = 45 := rfl
  have h46 : ('.' : Char).toNat = 46 := rfl
  rw [h43, h45, h46] at h ⊢
  rcases h with ((((h | h | h) | h) | h) | h) <;> split <;> omega

theorem isSchemeChar_toNat (c : Char) (h : isSchemeChar c = true) :
    (43 ≤ c.toNat ∧ c.toNat ≤ 46 ∧ c.toNat ≠ 44) ∨ (48 ≤ c.toNat ∧ c.toNat ≤ 57) ∨
      (65 ≤ c.toNat ∧ c.toNat ≤ 90) ∨ (97 ≤ c.toNat ∧ c.toNat ≤ 122) := by
  unfold isSchemeChar at h
  simp only [Bool.or_eq_true, isAlphanum_iff, decide_eq_true_eq, char_eq_iff_toNat] at h
  have h43 : ('+' : Char).toNat = 43 := rfl
  have h45 : ('-' : Char).toNat = 45 := rfl
  have h46 : ('.' : Char).toNat = 46 := rfl
  rw [h43, h45, h46] at h
  rcases h with ((((h | h | h) | h) | h) | h) <;> omega

/-- Every scheme character is harmless for reparsing: none of the URL
delimiters, no bracket, not a removable byte, not strippable. -/
theorem isSchemeChar_facts (c : Char) (h : isSchemeChar c = true) :
    c ≠ ':' ∧ c ≠ '/' ∧ c ≠ '?' ∧ c ≠ '#' ∧ c ≠ ';' ∧ c ≠ '[' ∧ c ≠ ']' ∧
      isUnsafeUrlChar c = false ∧ isC0OrSpace c = false := by
  have hn := isSchemeChar_toNat c h
  refine ⟨?_, ?_, ?_, ?_, ?_, ?_, ?_, ?_, ?_⟩
  · intro hc; have hx : c.toNat = 58 := by rw [hc]; rfl
    omega
  · intro hc; have hx : c.toNat = 47 := by rw [hc]; rfl
    omega
  · intro hc; have hx : c.toNat = 63 := by rw [hc]; rfl
    omega
  · intro hc; have hx : c.toNat = 35 := by rw [hc]; rfl
    omega
  · intro hc; have hx : c.toNat = 59 := by rw [hc]; rfl
    omega
  · intro hc; have hx : c.toNat = 91 := by rw [hc]; rfl
    omega
  · intro hc; have hx : c.toNat = 93 := by rw [hc]; rfl
    omega
  · simp only [isUnsafeUrlChar, Bool.or_eq_false_iff, decide_eq_false_iff_not]
    refine ⟨⟨?_, ?_⟩, ?_⟩
    · intro hc; have hx : c.toNat = 9 := by rw [hc]; rfl
      omega
    · intro hc; have hx : c.toNat = 13 := by rw [hc]; rfl
      omega
    · intro hc; have hx : c.toNat = 10 := by rw [hc]; rfl
      omega
  · simp only [isC0OrSpace, decide_eq_false_iff_not, not_le]
    rcases hn with h1 | h1 | h1 | h1 <;> omega

/-! ## Lemmas about the splitting primitives -/

theorem splitOnFirst_of_not_mem {c : Char} {l : List Char} (h : c ∉ l) :
    splitOnFirst c l = (l, none) := by
  induction l with
  | nil => rfl
  | cons x xs ih =>
    simp only [List.mem_cons, not_or] at h
    simp [splitOnFirst, Ne.symm h.1, ih h.2]

theorem splitOnFirst_none {c : Char} {l pre : List Char}
    (h : splitOnFirst c l = (pre, none)) : pre = l ∧ c ∉ l := by
  induction l generalizing pre with
  | nil => simp [splitOnFirst] at h; simp [h]
  | cons x xs ih =>
    by_cases hx : x = c
    · simp [splitOnFirst, hx] at h
    · simp only [splitOnFirst, if_neg hx] at h
      obtain ⟨h1, h2⟩ := Prod.mk.injEq _ _ _ _ ▸ h
      rcases hr : splitOnFirst c xs with ⟨p2, o2⟩
      rw [hr] at h1 h2
      simp at h1 h2
      subst h2
      obtain ⟨hp, hm⟩ := ih hr
      constructor
      · rw [← h1, hp]
      · simp [Ne.symm hx, hm]

theorem splitOnFirst_some {c : Char} {l pre rest : List Char}
    (h : splitOnFirst c l = (pre, some rest)) :
    l = pre ++ c :: rest ∧ c ∉ pre := by
  induction l generalizing pre rest with
  | nil => simp [splitOnFirst] at h
  | cons x xs ih =>
    by_cases hx : x = c
    · simp [splitOnFirst, hx] at h
      obtain ⟨h1, h2⟩ := h
      subst h1; subst h2; simp [hx]
    · simp only [splitOnFirst, if_neg hx] at h
      rcases hr : splitOnFirst c xs with ⟨p2, o2⟩
      rw [hr] at h
      simp at h
      obtain ⟨h1, h2⟩ := h
      subst h2
      rcases pre with _ | ⟨p0, ps⟩
      · simp at h1
      · simp at h1
        obtain ⟨hx0, hps⟩ := h1
        subst hx0 hps
        obtain ⟨he, hm⟩ := ih hr
        constructor
        · simp [he]
        · simp [Ne.symm hx, hm]

theorem splitOnFirst_append {c : Char} {a b : List Char} (h : c ∉ a) :
    splitOnFirst c (a ++ c :: b) = (a, some b) := by
  induction a with
  | nil => simp [splitOnFirst]
  | cons x xs ih =>
    simp only [List.mem_cons, not_or] at h
    simp [splitOnFirst, Ne.symm h.1, ih h.2]

theorem splitPy_of_not_mem {c : Char} {l : List Char} (h : c ∉ l) :
    splitPy c l = (l, []) := by
  unfold splitPy
  rw [splitOnFirst_of_not_mem h]

theorem splitPy_append {c : Char} {a b : List Char} (h : c ∉ a) :
    splitPy c (a ++ c :: b) = (a, b) := by
  unfold splitPy
  rw [splitOnFirst_append h]

/-- Specification of `splitPy`: either the separator is absent and the input
is returned whole, or the input splits at its first occurrence. -/
theorem splitPy_spec (c : Char) (l : List Char) :
    (splitPy c l = (l, []) ∧ c ∉ l ∧ (splitPy c l).2 = []) ∨
      (l = (splitPy c l).1 ++ c :: (splitPy c l).2 ∧ c ∉ (splitPy c l).1) := by
  rcases hr : splitOnFirst c l with ⟨pre, o⟩
  cases o with
  | none =>
    obtain ⟨h1, h2⟩ := splitOnFirst_none hr
    left
    have : splitPy c l = (l, []) := splitPy_of_not_mem h2
    simp [this, h2]
  | some rest =>
    obtain ⟨h1, h2⟩ := splitOnFirst_some hr
    right
    have : splitPy c l = (pre, rest) := by unfold splitPy; rw [hr]
    simp [this, ← h1, h2]

theorem splitOnLast_none {c : Char} {l : List Char} (h : splitOnLast c l = none) :
    c ∉ l := by
  induction l with
  | nil => simp
  | cons x xs ih =>
    simp only [splitOnLast] at h
    rcases hr : splitOnLast c xs with _ | ⟨a, b⟩ <;> rw [hr] at h <;> simp at h
    simp only [List.mem_cons, not_or]
    exact ⟨fun hc => h hc.symm, ih hr⟩

theorem splitOnLast_some {c : Char} {l a b : List Char}
    (h : splitOnLast c l = some (a, b)) : l = a ++ c :: b ∧ c ∉ b := by
  induction l generalizing a b with
  | nil => simp [splitOnLast] at h
  | cons x xs ih =>
    simp only [splitOnLast] at h
    rcases hr : splitOnLast c xs with _ | ⟨a2, b2⟩
    · rw [hr] at h
      by_cases hx : x = c
      · rw [if_pos hx] at h
        simp at h
        obtain ⟨h1, h2⟩ := h
        subst h1; subst h2
        exact ⟨by simp [hx], splitOnLast_none hr⟩
      · rw [if_neg hx] at h; simp at h
    · rw [hr] at h
      simp at h
      obtain ⟨h1, h2⟩ := h
      subst h2
      obtain ⟨he, hm⟩ := ih hr
      rcases a with _ | ⟨a0, as⟩
      · simp at h1
      · simp at h1
        obtain ⟨hx0, has⟩ := h1
        subst hx0; subst has
        exact ⟨by simp [he], hm⟩

theorem splitOnLast_append_right {c : Char} {x a b : List Char}
    (h : splitOnLast c x = some (a, b)) (A : List Char) :
    splitOnLast c (A ++ x) = some (A ++ a, b) := by
  induction A with
  | nil => simpa using h
  | cons y ys ih => simp [splitOnLast, ih]

theorem splitOnLast_of_not_mem {c : Char} {l : List Char} (h : c ∉ l) :
    splitOnLast c l = none := by
  induction l with
  | nil => rfl
  | cons x xs ih =>
    simp only [List.mem_cons, not_or] at h
    simp [splitOnLast, ih h.2, Ne.symm h.1]

theorem splitOnLast_append_last {c : Char} {b : List Char} (h : c ∉ b)
    (a : List Char) : splitOnLast c (a ++ c :: b) = some (a, b) := by
  induction a with
  | nil => simp [splitOnLast, splitOnLast_of_not_mem h]
  | cons y ys ih => simp [splitOnLast, ih]

/-! ## takeWhile / dropWhile lemmas -/

theorem takeWhile_append_of_all {p : Char → Bool} {a : List Char}
    (h : ∀ x ∈ a, p x = true) (b : List Char) :
    (a ++ b).takeWhile p = a ++ b.takeWhile p := by
  induction a with
  | nil => simp
  | cons x xs ih =>
    have hx := h x (by simp)
    simp only [List.cons_append, List.takeWhile_cons, hx, if_true]
    rw [ih (fun y hy => h y (by simp [hy]))]

theorem dropWhile_append_of_all {p : Char → Bool} {a : List Char}
    (h : ∀ x ∈ a, p x = true) (b : List Char) :
    (a ++ b).dropWhile p = b.dropWhile p := by
  induction a with
  | nil => simp
  | cons x xs ih =>
    have hx := h x (by simp)
    simp only [List.cons_append, List.dropWhile_cons, hx, if_true]
    exact ih (fun y hy => h y (by simp [hy]))

theorem takeWhile_cons_of_neg {p : Char → Bool} {x : Char} (h : p x = false)
    (l : List Char) : (x :: l).takeWhile p = [] := by
  simp [List.takeWhile_cons, h]

theorem dropWhile_cons_of_neg {p : Char → Bool} {x : Char} (h : p x = false)
    (l : List Char) : (x :: l).dropWhile p = x :: l := by
  simp [List.dropWhile_cons, h]

theorem takeWhile_all {p : Char → Bool} (l : List Char) :
    ∀ x ∈ l.takeWhile p, p x = true := fun _ hx => List.mem_takeWhile_imp hx

theorem mem_of_mem_takeWhile {p : Char → Bool} {l : List Char} {x : Char}
    (h : x ∈ l.takeWhile p) : x ∈ l :=
  List.takeWhile_sublist p |>.mem h

theorem mem_of_mem_dropWhile {p : Char → Bool} {l : List Char} {x : Char}
    (h : x ∈ l.dropWhile p) : x ∈ l :=
  List.dropWhile_sublist p |>.mem h

theorem dropWhile_head_neg {p : Char → Bool} {l : List Char} {x : Char}
    {xs : List Char} (h : l.dropWhile p = x :: xs) : p x = false := by
  induction l with
  | nil => simp at h
  | cons y ys ih =>
    by_cases hy : p y
    · rw [List.dropWhile_cons, if_pos hy] at h
      exact ih h
    · rw [List.dropWhile_cons, if_neg hy] at h
      obtain ⟨rfl, rfl⟩ := List.cons.injEq _ _ _ _ ▸ h
      simpa using hy

/-! ## Lemmas about `_splitparams` -/

theorem splitparams_glue_eq {l a b : List Char} (h : splitparamsL l = (a, b))
    (hb : b ≠ []) : l = a ++ ';' :: b := by
  unfold splitparamsL at h
  by_cases hs : '/' ∈ l
  · rw [if_pos hs] at h
    rcases hL : splitOnLast '/' l with _ | ⟨a0, b0⟩
    · exact absurd hs (splitOnLast_none hL)
    · rw [hL] at h
      dsimp only at h
      rcases hF : splitOnFirst ';' b0 with ⟨b1, _ | b2⟩ <;> rw [hF] at h <;>
        dsimp only at h <;> simp at h
      · exact absurd h.2 hb
      · obtain ⟨h1, h2⟩ := h
        obtain ⟨he0, _⟩ := splitOnLast_some hL
        obtain ⟨he1, _⟩ := splitOnFirst_some hF
        subst h1 h2
        simp [he0, he1]
  · rw [if_neg hs] at h
    rcases hF : splitOnFirst ';' l with ⟨a0, _ | b0⟩ <;> rw [hF] at h <;>
      dsimp only at h <;> simp at h
    · exact absurd h.2 hb
    · obtain ⟨h1, h2⟩ := h
      obtain ⟨he, _⟩ := splitOnFirst_some hF
      subst h1 h2
      exact he

theorem splitparams_fst_stable {l a : List Char} (h : splitparamsL l = (a, [])) :
    splitparamsL a = (a, []) := by
  unfold splitparamsL at h
  by_cases hs : '/' ∈ l
  · rw [if_pos hs] at h
    rcases hL : splitOnLast '/' l with _ | ⟨a0, b0⟩
    · rw [hL] at h
      dsimp only at h
      simp at h
      subst h
      unfold splitparamsL
      rw [if_pos hs, hL]
    · rw [hL] at h
      dsimp only at h
      obtain ⟨_, hnb0⟩ := splitOnLast_some hL
      rcases hF : splitOnFirst ';' b0 with ⟨b1, _ | b2⟩ <;> rw [hF] at h <;>
        dsimp only at h <;> simp at h
      · subst h
        unfold splitparamsL
        rw [if_pos hs, hL]
        dsimp only
        rw [hF]
      · obtain ⟨h1, h2⟩ := h
        subst h2
        obtain ⟨he1, hm1⟩ := splitOnFirst_some hF
        have hnb1 : '/' ∉ b1 := fun hx => hnb0 (by rw [he1]; simp [hx])
        subst h1
        unfold splitparamsL
        rw [if_pos (by simp), splitOnLast_append_last hnb1 a0]
        dsimp only
        rw [splitOnFirst_of_not_mem hm1]
  · rw [if_neg hs] at h
    rcases hF : splitOnFirst ';' l with ⟨a0, _ | b0⟩ <;> rw [hF] at h <;>
      dsimp only at h <;> simp at h
    · subst h
      unfold splitparamsL
      rw [if_neg hs, hF]
    · obtain ⟨rfl, rfl⟩ := h
      obtain ⟨he, hm⟩ := splitOnFirst_some hF
      have hsa : '/' ∉ a0 := fun hx => hs (by rw [he]; simp [hx])
      unfold splitparamsL
      rw [if_neg hsa, splitOnFirst_of_not_mem hm]

theorem splitparams_cons_slash {l a b : List Char} (h : splitparamsL l = (a, b)) :
    splitparamsL ('/' :: l) = ('/' :: a, b) := by
  unfold splitparamsL at h ⊢
  rw [if_pos (by simp)]
  by_cases hs : '/' ∈ l
  · rw [if_pos hs] at h
    rcases hL : splitOnLast '/' l with _ | ⟨a0, b0⟩
    · exact absurd hs (splitOnLast_none hL)
    · rw [hL] at h
      dsimp only at h
      have hL2 : splitOnLast '/' ('/' :: l) = some ('/' :: a0, b0) :=
        splitOnLast_append_right hL ['/']
      rw [hL2]
      dsimp only
      revert h
      rcases splitOnFirst ';' b0 with ⟨b1, _ | b2⟩ <;> dsimp only <;> intro h <;>
        simp at h <;> simp [h]
  · rw [if_neg hs] at h
    have hL2 : splitOnLast '/' ('/' :: l) = some ([], l) := by
      simp [splitOnLast, splitOnLast_of_not_mem hs]
    rw [hL2]
    dsimp only
    revert h
    rcases splitOnFirst ';' l with ⟨a0, _ | b0⟩ <;> dsimp only <;> intro h <;>
      simp at h <;> simp [h]

theorem splitparams_suffix {A X a2 b2 : List Char} (hs : '/' ∈ X)
    (h : splitparamsL X = (a2, b2)) : splitparamsL (A ++ X) = (A ++ a2, b2) := by
  unfold splitparamsL at h ⊢
  rw [if_pos hs] at h
  rw [if_pos (by simp [hs])]
  rcases hL : splitOnLast '/' X with _ | ⟨a0, b0⟩
  · exact absurd hs (splitOnLast_none hL)
  · rw [hL] at h
    dsimp only at h
    rw [splitOnLast_append_right hL A]
    dsimp only
    revert h
    rcases splitOnFirst ';' b0 with ⟨b1, _ | b2x⟩ <;> dsimp only <;> intro h <;>
      simp at h <;> simp [h]

/-! ## filter / dropWhile no-op lemmas -/

theorem filter_eq_self_of_all {p : Char → Bool} {l : List Char}
    (h : ∀ x ∈ l, p x = true) : l.filter p = l :=
  List.filter_eq_self.mpr h

theorem dropWhile_eq_self_of_head {p : Char → Bool} {l : List Char}
    (h : l = [] ∨ ∃ x xs, l = x :: xs ∧ p x = false) : l.dropWhile p = l := by
  rcases h with rfl | ⟨x, xs, rfl, hx⟩
  · rfl
  · exact dropWhile_cons_of_neg hx xs

/-! ## More character bridges -/

theorem isUnsafe_iff (c : Char) :
    isUnsafeUrlChar c = true ↔ c.toNat = 9 ∨ c.toNat = 13 ∨ c.toNat = 10 := by
  unfold isUnsafeUrlChar
  simp only [Bool.or_eq_true, decide_eq_true_eq, char_eq_iff_toNat]
  have h9 : ('\t' : Char).toNat = 9 := rfl
  have h13 : ('\r' : Char).toNat = 13 := rfl
  have h10 : ('\n' : Char).toNat = 10 := rfl
  rw [h9, h13, h10]
  tauto

theorem not_unsafe_of_not_c0 {c : Char} (h : isC0OrSpace c = false) :
    isUnsafeUrlChar c = false := by
  rw [← Bool.not_eq_true, isUnsafe_iff]
  simp only [isC0OrSpace, decide_eq_false_iff_not, not_le] at h
  omega

theorem pyLowerChar_safe {c : Char} (h : isUnsafeUrlChar c = false) :
    isUnsafeUrlChar (pyLowerChar c) = false := by
  rw [← Bool.not_eq_true, isUnsafe_iff] at h ⊢
  rw [pyLowerChar_toNat]
  split <;> omega

theorem pyLowerChar_eq_bracket {c : Char} {b : Char} (hb : b.toNat = 91 ∨ b.toNat = 93)
    (h : pyLowerChar c = b) : c = b := by
  rw [char_eq_iff_toNat] at h ⊢
  rw [pyLowerChar_toNat] at h
  revert h
  split <;> omega

theorem isAlpha_not_c0 {c : Char} (h : c.isAlpha = true) : isC0OrSpace c = false := by
  rw [isAlpha_iff] at h
  simp only [isC0OrSpace, decide_eq_false_iff_not, not_le]
  omega

theorem isNetlocChar_false_iff (c : Char) :
    isNetlocChar c = false ↔ c = '/' ∨ c = '?' ∨ c = '#' := by
  unfold isNetlocChar
  simp only [Bool.not_eq_false', Bool.or_eq_true, decide_eq_true_eq]
  tauto

theorem netlocChecks_nil : netlocChecks [] = Except.ok () := rfl

/-! ## Composition lemmas for `splitOnFirst` -/

theorem splitOnFirst_append_some {c : Char} {a p q : List Char}
    (h : splitOnFirst c a = (p, some q)) (b : List Char) :
    splitOnFirst c (a ++ b) = (p, some (q ++ b)) := by
  obtain ⟨he, hm⟩ := splitOnFirst_some h
  rw [he, List.append_assoc, List.cons_append]
  exact splitOnFirst_append hm

theorem splitOnFirst_append_gen {c : Char} {a : List Char} (h : c ∉ a)
    (b : List Char) :
    splitOnFirst c (a ++ b) =
      (a ++ (splitOnFirst c b).1, (splitOnFirst c b).2) := by
  induction a with
  | nil => simp
  | cons x xs ih =>
    simp only [List.mem_cons, not_or] at h
    simp [splitOnFirst, Ne.symm h.1, ih h.2]

/-! ## Characterization of `schemeSplit` -/

theorem schemeSplit_pos {u pre rest : List Char}
    (h : splitOnFirst ':' u = (pre, some rest)) (hg : schemeGuard pre = true) :
    schemeSplit u = (pyLowerL pre, rest) := by
  unfold schemeSplit
  rw [h]
  rcases pre with _ | ⟨c, cs⟩
  · simp [schemeGuard] at hg
  · dsimp only
    rw [if_pos hg]

theorem schemeSplit_neg {u pre rest : List Char}
    (h : splitOnFirst ':' u = (pre, some rest)) (hg : schemeGuard pre = false) :
    schemeSplit u = ([], u) := by
  unfold schemeSplit
  rw [h]
  rcases pre with _ | ⟨c, cs⟩
  · rfl
  · dsimp only
    rw [if_neg (by simp [hg])]

theorem schemeSplit_no_colon {u : List Char} (h : ':' ∉ u) :
    schemeSplit u = ([], u) := by
  unfold schemeSplit
  rw [splitOnFirst_of_not_mem h]
  cases u <;> rfl

theorem schemeSplit_cases (u : List Char) :
    (schemeSplit u = ([], u) ∧
      ∀ pre rest, splitOnFirst ':' u = (pre, some rest) → schemeGuard pre = false) ∨
    (∃ pre rest, splitOnFirst ':' u = (pre, some rest) ∧ schemeGuard pre = true ∧
      schemeSplit u = (pyLowerL pre, rest)) := by
  rcases hr : splitOnFirst ':' u with ⟨pre, _ | rest⟩
  · left
    constructor
    · unfold schemeSplit
      rw [hr]
      cases pre <;> rfl
    · intro p r hpr
      exact absurd hpr (by simp)
  · by_cases hg : schemeGuard pre = true
    · right
      exact ⟨pre, rest, rfl, hg, schemeSplit_pos hr hg⟩
    · left
      refine ⟨schemeSplit_neg hr (by simpa using hg), ?_⟩
      intro p r hpr
      simp at hpr
      obtain ⟨h1, h2⟩ := hpr
      subst h1
      simpa using hg

theorem schemeGuard_false_of_bad_mem {pre : List Char} {d : Char} (hd : d ∈ pre)
    (h1 : d.isAlpha = false) (h2 : isSchemeChar d = false) :
    schemeGuard pre = false := by
  rcases pre with _ | ⟨c, cs⟩
  · rfl
  · unfold schemeGuard
    rcases List.mem_cons.mp hd with rfl | hm
    · simp [h1]
    · simp only [Bool.and_eq_false_iff]
      right
      rw [← Bool.not_eq_true, List.all_eq_true]
      intro hall
      have := hall d hm
      rw [h2] at this
      simp at this

theorem schemeGuard_head_not_alpha {c : Char} (h : c.isAlpha = false)
    (cs : List Char) : schemeGuard (c :: cs) = false := by
  unfold schemeGuard
  simp [h]

theorem schemeSplit_head_not_alpha {x : Char} (h : x.isAlpha = false)
    (xs : List Char) : schemeSplit (x :: xs) = ([], x :: xs) := by
  rcases hr : splitOnFirst ':' (x :: xs) with ⟨pre, _ | rest⟩
  · unfold schemeSplit
    rw [hr]
    cases pre <;> rfl
  · obtain ⟨he, hm⟩ := splitOnFirst_some hr
    rcases pre with _ | ⟨c, cs⟩
    · unfold schemeSplit
      rw [hr]
    · have hx : c = x := by
        have := congrArg (fun l => l.head?) he
        simpa using this.symm
      subst hx
      exact schemeSplit_neg hr (schemeGuard_head_not_alpha h cs)

/-- A `schemeSplit` that found no scheme certifies that every colon split is
guard-blocked. -/
theorem schemeSplit_self_blocked {u pre rest : List Char}
    (hs : schemeSplit u = ([], u)) (h : splitOnFirst ':' u = (pre, some rest)) :
    schemeGuard pre = false := by
  by_contra hg
  rw [Bool.not_eq_false] at hg
  rw [schemeSplit_pos h hg] at hs
  obtain ⟨h1, _⟩ := Prod.mk.injEq _ _ _ _ ▸ hs
  rcases pre with _ | ⟨c, cs⟩
  · simp [schemeGuard] at hg
  · simp [pyLowerL] at h1

/-! ## Characterization of `netlocSplit` -/

theorem netlocSplit_cons2 (r : List Char) :
    netlocSplit ('/' :: '/' :: r) = (r.takeWhile isNetlocChar, r.dropWhile isNetlocChar) := rfl

theorem netlocSplit_other {u : List Char} (h : u.take 2 ≠ ['/', '/']) :
    netlocSplit u = ([], u) := by
  unfold netlocSplit
  split
  · simp at h
  · rfl

theorem splitPy_fst_suffix (c : Char) (l : List Char) :
    ∃ t, l = (splitPy c l).1 ++ t := by
  rcases splitPy_spec c l with ⟨h1, _, _⟩ | ⟨h1, _⟩
  · exact ⟨[], by simp [h1]⟩
  · exact ⟨c :: (splitPy c l).2, h1⟩

theorem mem_splitPy_fst {c x : Char} {l : List Char}
    (h : x ∈ (splitPy c l).1) : x ∈ l := by
  obtain ⟨t, ht⟩ := splitPy_fst_suffix c l
  rw [ht]
  simp [h]

theorem mem_splitPy_snd {c x : Char} {l : List Char}
    (h : x ∈ (splitPy c l).2) : x ∈ l := by
  rcases splitPy_spec c l with ⟨_, _, h2⟩ | ⟨h1, _⟩
  · rw [h2] at h
    simp at h
  · rw [h1]
    simp [h]

theorem not_mem_splitPy_fst (c : Char) (l : List Char) : c ∉ (splitPy c l).1 := by
  rcases splitPy_spec c l with ⟨h1, h2, _⟩ | ⟨_, h2⟩
  · rw [h1]
    exact h2
  · exact h2

/-! ## Shape lemmas for `_splitparams` -/

theorem splitparams_shapes {l a b : List Char} (h : splitparamsL l = (a, b)) :
    l = a ++ ';' :: b ∨ (b = [] ∧ (a = l ∨ l = a ++ [';'])) := by
  by_cases hb : b = []
  · subst hb
    right
    refine ⟨rfl, ?_⟩
    unfold splitparamsL at h
    by_cases hs : '/' ∈ l
    · rw [if_pos hs] at h
      rcases hL : splitOnLast '/' l with _ | ⟨a0, b0⟩
      · rw [hL] at h
        dsimp only at h
        simp at h
        left; exact h.symm
      · rw [hL] at h
        dsimp only at h
        rcases hF : splitOnFirst ';' b0 with ⟨b1, _ | b2⟩ <;> rw [hF] at h <;>
          dsimp only at h <;> simp at h
        · left
          exact h.symm
        · obtain ⟨h1, h2⟩ := h
          obtain ⟨he0, _⟩ := splitOnLast_some hL
          obtain ⟨he1, _⟩ := splitOnFirst_some hF
          right
          rw [he0, he1, ← h1, h2]
          simp
    · rw [if_neg hs] at h
      rcases hF : splitOnFirst ';' l with ⟨a0, _ | b0⟩ <;> rw [hF] at h <;>
        dsimp only at h <;> simp at h
      · left; exact h.symm
      · obtain ⟨h1, h2⟩ := h
        obtain ⟨he, _⟩ := splitOnFirst_some hF
        right
        rw [he, ← h1, h2]
  · left
    exact splitparams_glue_eq h hb

theorem splitparams_no_slash {l a b : List Char} (h : splitparamsL l = (a, b))
    (hl : b ≠ []) : '/' ∉ b := by
  unfold splitparamsL at h
  by_cases hs : '/' ∈ l
  · rw [if_pos hs] at h
    rcases hL : splitOnLast '/' l with _ | ⟨a0, b0⟩
    · exact absurd hs (splitOnLast_none hL)
    · rw [hL] at h
      dsimp only at h
      obtain ⟨_, hnb0⟩ := splitOnLast_some hL
      rcases hF : splitOnFirst ';' b0 with ⟨b1, _ | b2⟩ <;> rw [hF] at h <;>
        dsimp only at h <;> simp at h
      · first
        | exact absurd h.2.symm hl
        | exact absurd h.2 hl
      · obtain ⟨_, h2⟩ := h
        obtain ⟨he1, _⟩ := splitOnFirst_some hF
        subst h2
        intro hx
        exact hnb0 (by rw [he1]; simp [hx])
  · rw [if_neg hs] at h
    rcases hF : splitOnFirst ';' l with ⟨a0, _ | b0⟩ <;> rw [hF] at h <;>
      dsimp only at h <;> simp at h
    · first
      | exact absurd h.2.symm hl
      | exact absurd h.2 hl
    · obtain ⟨h1, h2⟩ := h
      subst h2
      obtain ⟨he, _⟩ := splitOnFirst_some hF
      intro hx
      exact hs (by rw [he]; simp [hx])

theorem splitparams_fst_prefix {l a b : List Char} (h : splitparamsL l = (a, b)) :
    ∃ t, l = a ++ t := by
  rcases splitparams_shapes h with he | ⟨_, he | he⟩
  · exact ⟨';' :: b, he⟩
  · exact ⟨[], by simp [he]⟩
  · exact ⟨[';'], he⟩

theorem mem_splitparams_fst {l a b : List Char} (h : splitparamsL l = (a, b))
    {x : Char} (hx : x ∈ a) : x ∈ l := by
  obtain ⟨t, ht⟩ := splitparams_fst_prefix h
  rw [ht]
  simp [hx]

theorem mem_splitparams_snd {l a b : List Char} (h : splitparamsL l = (a, b))
    {x : Char} (hx : x ∈ b) : x ∈ l := by
  rcases splitparams_shapes h with he | ⟨hb, _⟩
  · rw [he]
    simp [hx]
  · subst hb
    simp at hx

/-! ## Elimination principles for the `urlsplit` stages -/

theorem netlocSplit_spec (u : List Char) :
    (∃ r, u = '/' :: '/' :: r ∧
      netlocSplit u = (r.takeWhile isNetlocChar, r.dropWhile isNetlocChar)) ∨
    netlocSplit u = ([], u) := by
  by_cases h : u.take 2 = ['/', '/']
  · left
    rcases u with _ | ⟨a, _ | ⟨b, r⟩⟩ <;> simp at h
    obtain ⟨rfl, rfl⟩ := h
    exact ⟨r, rfl, netlocSplit_cons2 r⟩
  · right
    exact netlocSplit_other h

theorem takeWhile_nil_head {p : Char → Bool} {l : List Char}
    (h : l.takeWhile p = []) : l = [] ∨ ∃ x xs, l = x :: xs ∧ p x = false := by
  rcases l with _ | ⟨x, xs⟩
  · left; rfl
  · right
    refine ⟨x, xs, rfl, ?_⟩
    by_contra hx
    rw [Bool.not_eq_false] at hx
    rw [List.takeWhile_cons, if_pos hx] at h
    simp at h

theorem pyCleanUrl_safe (u : List Char) :
    ∀ x ∈ pyCleanUrl u, isUnsafeUrlChar x = false := by
  intro x hx
  unfold pyCleanUrl at hx
  have := List.of_mem_filter hx
  simpa using this

theorem pyCleanUrl_head (u : List Char) :
    pyCleanUrl u = [] ∨
      ∃ x xs, pyCleanUrl u = x :: xs ∧ isC0OrSpace x = false := by
  unfold pyCleanUrl
  rcases hd : u.dropWhile isC0OrSpace with _ | ⟨x, xs⟩
  · left; rfl
  · have hx : isC0OrSpace x = false := dropWhile_head_neg hd
    right
    refine ⟨x, xs.filter (fun c => !isUnsafeUrlChar c), ?_, hx⟩
    rw [List.filter_cons, if_pos (by simp [not_unsafe_of_not_c0 hx])]

theorem urlsplit_ok_elim {u : List Char} {q : URLParts}
    (h : pyUrlsplitL u = .ok q) :
    q.scheme = (schemeSplit (pyCleanUrl u)).1 ∧
    q.netloc = (netlocSplit (schemeSplit (pyCleanUrl u)).2).1 ∧
    netlocChecks q.netloc = Except.ok () ∧
    q.path =
      (splitPy '?' (splitPy '#' (netlocSplit (schemeSplit (pyCleanUrl u)).2).2).1).1 ∧
    q.params = [] ∧
    q.query =
      (splitPy '?' (splitPy '#' (netlocSplit (schemeSplit (pyCleanUrl u)).2).2).1).2 ∧
    q.fragment = (splitPy '#' (netlocSplit (schemeSplit (pyCleanUrl u)).2).2).2 := by
  unfold pyUrlsplitL at h
  dsimp only at h
  rcases hnc : netlocChecks (netlocSplit (schemeSplit (pyCleanUrl u)).2).1 with e | e <;>
    rw [hnc] at h <;> dsimp only at h <;> simp at h
  subst h
  exact ⟨rfl, rfl, hnc, rfl, rfl, rfl, rfl⟩

theorem urlparse_ok_elim {u : List Char} {p : URLParts}
    (h : pyUrlparseL u = .ok p) :
    ∃ q, pyUrlsplitL u = .ok q ∧
      ((¬(String.mk q.scheme ∈ usesParams ∧ ';' ∈ q.path) ∧ p = q) ∨
       ((String.mk q.scheme ∈ usesParams ∧ ';' ∈ q.path) ∧
        splitparamsL q.path = (p.path, p.params) ∧
        p = { q with path := p.path, params := p.params })) := by
  unfold pyUrlparseL at h
  rcases hq : pyUrlsplitL u with e | q <;> rw [hq] at h <;> dsimp only at h
  · simp at h
  · by_cases hg : String.mk q.scheme ∈ usesParams ∧ ';' ∈ q.path
    · rw [if_pos hg] at h
      simp at h
      subst h
      exact ⟨q, rfl, Or.inr ⟨hg, rfl, rfl⟩⟩
    · rw [if_neg hg] at h
      simp at h
      subst h
      exact ⟨q, rfl, Or.inl ⟨hg, rfl⟩⟩

theorem splitOnFirst_mem_some {c : Char} {l : List Char} (h : c ∈ l) :
    ∃ pre rest, splitOnFirst c l = (pre, some rest) := by
  rcases hr : splitOnFirst c l with ⟨pre, _ | rest⟩
  · exact absurd h (splitOnFirst_none hr).2
  · exact ⟨pre, rest, rfl⟩

theorem splitOnFirst_cons_ne {c x : Char} (h : x ≠ c) (xs : List Char) :
    splitOnFirst c (x :: xs) =
      (x :: (splitOnFirst c xs).1, (splitOnFirst c xs).2) := by
  simp [splitOnFirst, h]

theorem stopper_not_c0 {c : Char} (h : c = '/' ∨ c = '?' ∨ c = '#') :
    isC0OrSpace c = false := by
  rcases h with rfl | rfl | rfl <;> rfl

theorem splitPy_fst_cons_ne {c x : Char} (h : x ≠ c) (xs : List Char) :
    ∃ ys, (splitPy c (x :: xs)).1 = x :: ys := by
  rcases hr : splitOnFirst c xs with ⟨p1, o⟩
  unfold splitPy
  rw [splitOnFirst_cons_ne h, hr]
  cases o
  · exact ⟨xs, rfl⟩
  · exact ⟨p1, rfl⟩

theorem splitPy_cons_self (c : Char) (xs : List Char) :
    splitPy c (c :: xs) = ([], xs) := by
  simp [splitPy, splitOnFirst]

theorem splitparams_fst_ne_nil {l a b : List Char} (hm : '/' ∈ l)
    (h : splitparamsL l = (a, b)) : a ≠ [] := by
  unfold splitparamsL at h
  rw [if_pos hm] at h
  rcases hl : splitOnLast '/' l with _ | ⟨A, B⟩
  · exact absurd hm (splitOnLast_none hl)
  · rw [hl] at h
    dsimp only at h
    rcases hf : splitOnFirst ';' B with ⟨B1, _ | B2⟩ <;> rw [hf] at h <;>
      dsimp only at h
    · have ha : a = l := (congrArg Prod.fst h).symm
      rw [ha]
      exact List.ne_nil_of_mem hm
    · have ha : a = A ++ '/' :: B1 := (congrArg Prod.fst h).symm
      rw [ha]
      simp

/-- Every `ok` result of the modelled `urlparse` satisfies the shape
invariants collected in `ParseShape`. -/
theorem parseShape_of_ok {u : List Char} {p : URLParts}
    (h : pyUrlparseL u = .ok p) : ParseShape p := by
  obtain ⟨q, hq, hcase⟩ := urlparse_ok_elim h
  obtain ⟨hsc, hnl, hnok, hpa, hpr0, hqq, hfr⟩ := urlsplit_ok_elim hq
  set u' := pyCleanUrl u with hu'
  set u1 := (schemeSplit u').2 with hu1
  set u2 := (netlocSplit u1).2 with hu2
  set u3 := (splitPy '#' u2).1 with hu3
  set u4 := (splitPy '?' u3).1 with hu4
  have hsafe : ∀ x ∈ u', isUnsafeUrlChar x = false := by
    rw [hu']
    exact pyCleanUrl_safe u
  -- p's components in terms of q's
  have hfs : p.scheme = q.scheme := by
    rcases hcase with ⟨_, hpe⟩ | ⟨_, _, hpe⟩ <;> rw [hpe]
  have hfn : p.netloc = q.netloc := by
    rcases hcase with ⟨_, hpe⟩ | ⟨_, _, hpe⟩ <;> rw [hpe]
  have hfq : p.query = q.query := by
    rcases hcase with ⟨_, hpe⟩ | ⟨_, _, hpe⟩ <;> rw [hpe]
  -- scheme-stage facts
  have hschemeF : (q.scheme = [] ∨ schemeGuard q.scheme = true) ∧
      pyLowerL q.scheme = q.scheme ∧
      (∀ c ∈ q.scheme, isUnsafeUrlChar c = false) ∧
      (∀ x ∈ u1, x ∈ u') ∧
      (q.scheme = [] → schemeSplit u' = ([], u') ∧ u1 = u') := by
    rcases schemeSplit_cases u' with ⟨hA, _⟩ | ⟨pre, rest, hsp, hg, hB⟩
    · have hs0 : q.scheme = [] := by rw [hsc, hA]
      have hu1A : u1 = u' := by rw [hu1, hA]
      refine ⟨Or.inl hs0, by simp [hs0, pyLowerL], ?_, ?_, fun _ => ⟨hA, hu1A⟩⟩
      · intro c hc
        rw [hs0] at hc
        simp at hc
      · intro x hx
        rwa [hu1A] at hx
    · obtain ⟨hpre_e, _⟩ := splitOnFirst_some hsp
      have hsc' : q.scheme = pyLowerL pre := by rw [hsc, hB]
      have hu1B : u1 = rest := by rw [hu1, hB]
      have hmem_pre : ∀ x ∈ pre, x ∈ u' := by
        intro x hx
        rw [hpre_e]
        simp [hx]
      refine ⟨?_, ?_, ?_, ?_, ?_⟩
      · right
        rw [hsc']
        unfold pyLowerL
        rcases pre with _ | ⟨c, cs⟩
        · simp [schemeGuard] at hg
        · simp only [List.map_cons]
          simp only [schemeGuard, Bool.and_eq_true] at hg ⊢
          refine ⟨pyLowerChar_isAlpha c hg.1, ?_⟩
          rw [List.all_map]
          rw [List.all_eq_true] at hg ⊢
          intro x hx
          exact pyLowerChar_isSchemeChar x (hg.2 x hx)
      · rw [hsc']
        unfold pyLowerL
        rw [List.map_map]
        exact List.map_congr_left fun a _ => pyLowerChar_idem a
      · intro c hc
        rw [hsc'] at hc
        unfold pyLowerL at hc
        rw [List.mem_map] at hc
        obtain ⟨d, hd, rfl⟩ := hc
        exact pyLowerChar_safe (hsafe d (hmem_pre d hd))
      · intro x hx
        rw [hu1B] at hx
        rw [hpre_e]
        simp [hx]
      · intro he
        rw [hsc'] at he
        rcases pre with _ | ⟨c, cs⟩
        · simp [schemeGuard] at hg
        · simp [pyLowerL] at he
  obtain ⟨hs_shape, hs_lower, hs_safe, hm1, hs_empty⟩ := hschemeF
  -- netloc-stage facts
  have hnetF : (∀ c ∈ q.netloc, isNetlocChar c = true) ∧
      (∀ x ∈ q.netloc, x ∈ u1) ∧
      (∀ x ∈ u2, x ∈ u1) ∧
      (q.netloc ≠ [] → u2 = [] ∨ ∃ x xs, u2 = x :: xs ∧ isNetlocChar x = false) ∧
      (u2 = u1 ∨ u2 = [] ∨ ∃ x xs, u2 = x :: xs ∧ isNetlocChar x = false) := by
    rcases netlocSplit_spec u1 with ⟨r, hr1, hr2⟩ | hr
    · have hnl' : q.netloc = r.takeWhile isNetlocChar := by rw [hnl, hr2]
      have hu2' : u2 = r.dropWhile isNetlocChar := by rw [hu2, hr2]
      have hhead : u2 = [] ∨ ∃ x xs, u2 = x :: xs ∧ isNetlocChar x = false := by
        rcases hd : r.dropWhile isNetlocChar with _ | ⟨x, xs⟩
        · exact Or.inl (by rw [hu2', hd])
        · exact Or.inr ⟨x, xs, by rw [hu2', hd], dropWhile_head_neg hd⟩
      refine ⟨?_, ?_, ?_, fun _ => hhead, Or.inr hhead⟩
      · intro c hc
        rw [hnl'] at hc
        exact takeWhile_all r c hc
      · intro x hx
        rw [hnl'] at hx
        rw [hr1]
        simp [mem_of_mem_takeWhile hx]
      · intro x hx
        rw [hu2'] at hx
        rw [hr1]
        simp [mem_of_mem_dropWhile hx]
    · have hnl0 : q.netloc = [] := by rw [hnl, hr]
      have hu2e : u2 = u1 := by rw [hu2, hr]
      refine ⟨?_, ?_, ?_, fun hne => absurd hnl0 hne, Or.inl hu2e⟩
      · intro c hc
        rw [hnl0] at hc
        simp at hc
      · intro x hx
        rw [hnl0] at hx
        simp at hx
      · intro x hx
        rwa [hu2e] at hx
  obtain ⟨hn_chars, hn_mem, hm2, hn_stop, hn_head⟩ := hnetF
  -- fragment/query-stage facts
  have hm3 : ∀ x ∈ u3, x ∈ u2 := by
    intro x hx
    rw [hu3] at hx
    exact mem_splitPy_fst hx
  have hm4 : ∀ x ∈ u4, x ∈ u3 := by
    intro x hx
    rw [hu4] at hx
    exact mem_splitPy_fst hx
  have hmq : ∀ x ∈ q.query, x ∈ u3 := by
    intro x hx
    rw [hqq] at hx
    exact mem_splitPy_snd hx
  have hh3 : '#' ∉ u3 := by
    rw [hu3]
    exact not_mem_splitPy_fst '#' u2
  have hq4 : '?' ∉ u4 := by
    rw [hu4]
    exact not_mem_splitPy_fst '?' u3
  have hh4 : '#' ∉ u4 := fun hx => hh3 (hm4 '#' hx)
  have hhq : '#' ∉ q.query := fun hx => hh3 (hmq '#' hx)
  have hpre4 : ∃ t, u3 = u4 ++ t := by
    rw [hu4]
    exact splitPy_fst_suffix '?' u3
  have hpre3 : ∃ t, u2 = u3 ++ t := by
    rw [hu3]
    exact splitPy_fst_suffix '#' u2
  -- params-stage facts
  have hparamsF :
      (∀ x ∈ p.path, x ∈ u4) ∧ (∀ x ∈ p.params, x ∈ u4) ∧
      (∃ t, u4 = p.path ++ t) ∧ ('/' ∉ p.params) ∧
      (glueParams p = u4 ∨ u4 = glueParams p ++ [';']) ∧
      (p.params ≠ [] → String.mk p.scheme ∈ usesParams) ∧
      (String.mk p.scheme ∈ usesParams → ';' ∈ glueParams p →
        splitparamsL (glueParams p) = (p.path, p.params)) ∧
      ('/' ∈ u4 → p.path ≠ []) := by
    rcases hcase with ⟨hng, hpe⟩ | ⟨hg, hspl, hpe⟩
    · have hppath : p.path = u4 := by rw [hpe]; exact hpa
      have hppar : p.params = [] := by rw [hpe]; exact hpr0
      have hglue : glueParams p = p.path := by
        unfold glueParams
        rw [if_neg (by simp [hppar])]
      refine ⟨?_, ?_, ⟨[], by simp [hppath]⟩, ?_, Or.inl (by rw [hglue, hppath]),
        ?_, ?_, ?_⟩
      · intro x hx
        rwa [hppath] at hx
      · intro x hx
        rw [hppar] at hx
        simp at hx
      · rw [hppar]
        simp
      · intro hne
        exact absurd hppar hne
      · intro hsch hsemi
        rw [hglue] at hsemi
        exfalso
        apply hng
        refine ⟨?_, ?_⟩
        · rw [← hfs]
          exact hsch
        · have hpq2 : p.path = q.path := congrArg URLParts.path hpe
          rwa [hpq2] at hsemi
      · intro hm
        rw [hppath]
        exact List.ne_nil_of_mem hm
    · rw [hpa] at hspl
      have hmemp : ∀ x ∈ p.path, x ∈ u4 := fun x hx => mem_splitparams_fst hspl hx
      have hmemr : ∀ x ∈ p.params, x ∈ u4 := fun x hx => mem_splitparams_snd hspl hx
      have hprefix : ∃ t, u4 = p.path ++ t := splitparams_fst_prefix hspl
      have hslash : '/' ∉ p.params := by
        by_cases hb : p.params = []
        · rw [hb]
          simp
        · exact splitparams_no_slash hspl hb
      have hglue2 : glueParams p = u4 ∨ u4 = glueParams p ++ [';'] := by
        by_cases hb : p.params = []
        · have hglue : glueParams p = p.path := by
            unfold glueParams
            rw [if_neg (by simp [hb])]
          rcases splitparams_shapes hspl with he | ⟨_, he | he⟩
          · rw [hb] at he
            right
            rw [hglue]
            exact he
          · left
            rw [hglue, he]
          · right
            rw [hglue]
            exact he
        · left
          unfold glueParams
          rw [if_pos hb]
          exact (splitparams_glue_eq hspl hb).symm
      refine ⟨hmemp, hmemr, hprefix, hslash, hglue2, ?_, ?_, ?_⟩
      · intro _
        rw [hfs]
        exact hg.1
      · intro _ _
        by_cases hb : p.params = []
        · have hglue : glueParams p = p.path := by
            unfold glueParams
            rw [if_neg (by simp [hb])]
          rw [hglue, hb]
          rw [hb] at hspl
          exact splitparams_fst_stable hspl
        · have hglue : glueParams p = u4 := by
            unfold glueParams
            rw [if_pos hb]
            exact (splitparams_glue_eq hspl hb).symm
          rw [hglue]
          exact hspl
      · intro hm
        exact splitparams_fst_ne_nil hm hspl
  obtain ⟨hp_mem, hr_mem, hp_prefix, hr_slash, hglue2, hps, hresp, hp_ne⟩ := hparamsF
  have chainTo : ∀ x ∈ u4, x ∈ u' := fun x hx => hm1 x (hm2 x (hm3 x (hm4 x hx)))
  have hq_path : '?' ∉ p.path := fun hx => hq4 (hp_mem '?' hx)
  have hh_path : '#' ∉ p.path := fun hx => hh4 (hp_mem '#' hx)
  have hnil_of : u4 = [] → p.path = [] ∧ p.params = [] := by
    intro h4
    constructor
    · obtain ⟨t1, ht1⟩ := hp_prefix
      rw [h4] at ht1
      exact (List.append_eq_nil.mp ht1.symm).1
    · rw [List.eq_nil_iff_forall_not_mem]
      intro y hy
      have hm := hr_mem y hy
      rw [h4] at hm
      simp at hm
  -- body decomposition for the re-parsing fields
  have hbody : ∃ Rt, glueParams p ++ queryPart p = p.path ++ Rt ∧
      (Rt = [] ∨ ∃ h0 tl, Rt = h0 :: tl ∧ (h0 = ';' ∨ h0 = '?')) := by
    by_cases hb : p.params = []
    · have hg : glueParams p = p.path := by
        unfold glueParams
        rw [if_neg (by simp [hb])]
      rcases hvq : p.query with _ | ⟨c, cs⟩
      · refine ⟨[], ?_, Or.inl rfl⟩
        rw [hg]
        unfold queryPart
        rw [hvq, if_neg (by simp)]
      · refine ⟨'?' :: p.query, ?_, Or.inr ⟨'?', p.query, rfl, Or.inr rfl⟩⟩
        rw [hg]
        unfold queryPart
        rw [if_pos (by rw [hvq]; simp)]
    · refine ⟨';' :: p.params ++ queryPart p, ?_,
        Or.inr ⟨';', p.params ++ queryPart p, rfl, Or.inl rfl⟩⟩
      unfold glueParams
      rw [if_pos hb]
      simp
  -- head of the path, for the empty-scheme fields
  have hpath_head : p.scheme = [] → ∀ c cs, p.path = c :: cs →
      isC0OrSpace c = false ∧
      ((∃ T, u' = p.path ++ T ∧ schemeSplit u' = ([], u')) ∨ c = '/') := by
    intro hps0 c cs hpv
    have hs0q : q.scheme = [] := by
      rw [← hfs]
      exact hps0
    have hTu2 : ∃ T, u2 = p.path ++ T := by
      obtain ⟨t1, ht1⟩ := hp_prefix
      obtain ⟨t4, ht4⟩ := hpre4
      obtain ⟨t3, ht3⟩ := hpre3
      refine ⟨t1 ++ t4 ++ t3, ?_⟩
      rw [ht3, ht4, ht1]
      simp
    obtain ⟨T, hT⟩ := hTu2
    rcases hn_head with h2u1 | h2nil | ⟨x, xs, hxe, hxs⟩
    · obtain ⟨hblk, h1u⟩ := hs_empty hs0q
      have h2u : u' = p.path ++ T := by
        rw [← h1u, ← h2u1]
        exact hT
      refine ⟨?_, Or.inl ⟨T, h2u, hblk⟩⟩
      rcases pyCleanUrl_head u with hnil | ⟨x, xs, hxe, hxc⟩
      · rw [← hu'] at hnil
        rw [hnil, hpv] at h2u
        simp at h2u
      · rw [← hu'] at hxe
        rw [hxe, hpv] at h2u
        simp only [List.cons_append] at h2u
        injection h2u with hxc2 _
        rw [← hxc2]
        exact hxc
    · rw [h2nil, hpv] at hT
      simp at hT
    · rw [hxe, hpv] at hT
      simp only [List.cons_append] at hT
      injection hT with h1 _
      have hcmem : c ∈ p.path := by
        rw [hpv]
        exact List.mem_cons_self c cs
      have hcs : c = '/' := by
        rcases (isNetlocChar_false_iff x).mp hxs with h | h | h
        · rw [← h1]
          exact h
        · rw [← h1] at hcmem
          rw [h] at hcmem
          exact absurd hcmem hq_path
        · rw [← h1] at hcmem
          rw [h] at hcmem
          exact absurd hcmem hh_path
      refine ⟨?_, Or.inr hcs⟩
      rw [hcs]
      rfl
  refine ⟨?_, ?_, ?_, ?_, ?_, ?_, ?_, ?_, ?_, ?_, ?_, ?_, ?_, ?_, ?_, ?_, ?_,
    ?_, ?_, ?_⟩
  -- scheme_shape
  · rw [hfs]
    exact hs_shape
  -- scheme_lower
  · rw [hfs]
    exact hs_lower
  -- netloc_chars
  · rw [hfn]
    exact hn_chars
  -- netloc_ok
  · rw [hfn]
    exact hnok
  -- path_no_hash
  · exact hh_path
  -- path_no_q
  · exact hq_path
  -- params_no_hash
  · exact fun hx => hh4 (hr_mem '#' hx)
  -- params_no_q
  · exact fun hx => hq4 (hr_mem '?' hx)
  -- params_no_slash
  · exact hr_slash
  -- query_no_hash
  · rw [hfq]
    exact hhq
  -- safe_scheme
  · rw [hfs]
    exact hs_safe
  -- safe_netloc
  · rw [hfn]
    intro c hc
    exact hsafe c (hm1 c (hn_mem c hc))
  -- safe_path
  · intro c hc
    exact hsafe c (chainTo c (hp_mem c hc))
  -- safe_params
  · intro c hc
    exact hsafe c (chainTo c (hr_mem c hc))
  -- safe_query
  · intro c hc
    rw [hfq] at hc
    exact hsafe c (hm1 c (hm2 c (hm3 c (hmq c hc))))
  -- netloc_path
  · intro hne
    rw [hfn] at hne
    rcases hn_stop hne with h2nil | ⟨x, xs, hxe, hxs⟩
    · have h3nil : u3 = [] := by
        obtain ⟨t3, ht3⟩ := hpre3
        rw [h2nil] at ht3
        exact (List.append_eq_nil.mp ht3.symm).1
      have h4nil : u4 = [] := by
        obtain ⟨t4, ht4⟩ := hpre4
        rw [h3nil] at ht4
        exact (List.append_eq_nil.mp ht4.symm).1
      exact Or.inl (hnil_of h4nil)
    · rcases (isNetlocChar_false_iff x).mp hxs with rfl | rfl | rfl
      · have h3c : ∃ ys, u3 = '/' :: ys := by
          rw [hu3, hxe]
          exact splitPy_fst_cons_ne (by decide) xs
        obtain ⟨ys, h3c⟩ := h3c
        have h4c : ∃ zs, u4 = '/' :: zs := by
          rw [hu4, h3c]
          exact splitPy_fst_cons_ne (by decide) ys
        obtain ⟨zs, h4c⟩ := h4c
        right
        have hppne : p.path ≠ [] := by
          apply hp_ne
          rw [h4c]
          exact List.mem_cons_self _ _
        rcases hpv : p.path with _ | ⟨d, ds⟩
        · exact absurd hpv hppne
        · obtain ⟨t1, ht1⟩ := hp_prefix
          rw [h4c, hpv] at ht1
          simp only [List.cons_append] at ht1
          injection ht1 with h1 _
          rw [← h1]
          rfl
      · have h3c : ∃ ys, u3 = '?' :: ys := by
          rw [hu3, hxe]
          exact splitPy_fst_cons_ne (by decide) xs
        obtain ⟨ys, h3c⟩ := h3c
        have h4nil : u4 = [] := by
          rw [hu4, h3c, splitPy_cons_self]
        exact Or.inl (hnil_of h4nil)
      · have h3nil : u3 = [] := by
          rw [hu3, hxe, splitPy_cons_self]
        have h4nil : u4 = [] := by
          rw [hu4, h3nil]
          rfl
        exact Or.inl (hnil_of h4nil)
  -- params_scheme
  · exact hps
  -- params_resplit
  · exact hresp
  -- empty_noscheme
  · intro hps0 _
    obtain ⟨Rt, hRt, hRts⟩ := hbody
    by_cases hcp : ':' ∈ p.path
    · obtain ⟨pp, rr, hsplit⟩ := splitOnFirst_mem_some hcp
      rcases hpv : p.path with _ | ⟨c, cs⟩
      · rw [hpv] at hcp
        simp at hcp
      · obtain ⟨_, hor⟩ := hpath_head hps0 c cs hpv
        have hguardpp : schemeGuard pp = false := by
          rcases hor with ⟨T, hTu, hblk⟩ | hcs
          · have hsu : splitOnFirst ':' u' = (pp, some (rr ++ T)) := by
              rw [hTu]
              exact splitOnFirst_append_some hsplit T
            exact schemeSplit_self_blocked hblk hsu
          · obtain ⟨hpe2, _⟩ := splitOnFirst_some hsplit
            rcases hppv : pp with _ | ⟨d, ds⟩
            · rfl
            · rw [hpv, hppv] at hpe2
              simp only [List.cons_append] at hpe2
              injection hpe2 with h1 _
              rw [← h1, hcs]
              exact schemeGuard_head_not_alpha (by decide) ds
        rw [hRt]
        exact schemeSplit_neg (splitOnFirst_append_some hsplit Rt) hguardpp
    · rcases hRts with hRtnil | ⟨h0, tl, hRte, h0or⟩
      · rw [hRt, hRtnil]
        exact schemeSplit_no_colon (by simp [hcp])
      · have h0ne : h0 ≠ ':' := by
          rcases h0or with rfl | rfl <;> decide
        by_cases hct : ':' ∈ tl
        · obtain ⟨pr, rs, hw⟩ := splitOnFirst_mem_some hct
          have hsR : splitOnFirst ':' Rt = (h0 :: pr, some rs) := by
            rw [hRte, splitOnFirst_cons_ne h0ne, hw]
          have hsb : splitOnFirst ':' (p.path ++ Rt) =
              (p.path ++ h0 :: pr, some rs) := by
            rw [splitOnFirst_append_gen hcp, hsR]
          have hguard : schemeGuard (p.path ++ h0 :: pr) = false :=
            schemeGuard_false_of_bad_mem (d := h0) (by simp)
              (by rcases h0or with rfl | rfl <;> decide)
              (by rcases h0or with rfl | rfl <;> decide)
          rw [hRt]
          exact schemeSplit_neg hsb hguard
        · have hnb : ':' ∉ p.path ++ Rt := by
            rw [hRte]
            intro hm
            rcases List.mem_append.mp hm with hmm | hmm
            · exact hcp hmm
            · rcases List.mem_cons.mp hmm with hmm | hmm
              · exact h0ne hmm.symm
              · exact hct hmm
          rw [hRt]
          exact schemeSplit_no_colon hnb
  -- empty_head
  · intro hps0 _
    obtain ⟨Rt, hRt, hRts⟩ := hbody
    rcases hpv : p.path with _ | ⟨c, cs⟩
    · rw [hRt, hpv]
      simp only [List.nil_append]
      rcases hRts with rfl | ⟨h0, tl, rfl, h0or⟩
      · rfl
      · exact dropWhile_cons_of_neg (by rcases h0or with rfl | rfl <;> rfl) tl
    · obtain ⟨hc0, _⟩ := hpath_head hps0 c cs hpv
      rw [hRt, hpv]
      simp only [List.cons_append]
      exact dropWhile_cons_of_neg hc0 _

/-! ## Reassembly: `urlunparse` output structure -/

theorem unparse_decomp {p : URLParts} (hfr : p.fragment = []) :
    pyUrlunparseL p = schemePart p ++ (netBody p ++ queryPart p) := by
  by_cases hs : p.scheme = [] <;> by_cases hq : p.query = [] <;>
    by_cases hc : (p.netloc ≠ [] ∨ (p.scheme ≠ [] ∧ String.mk p.scheme ∈ usesNetloc ∧
      (glueParams p).take 2 ≠ ['/', '/'])) <;>
    simp [pyUrlunparseL, schemePart, netBody, slashGlue, queryPart, hfr, hs, hq, hc,
      List.append_assoc]

theorem glueParams_mem {p : URLParts} {x : Char} (hx : x ∈ glueParams p) :
    x ∈ p.path ∨ x = ';' ∨ x ∈ p.params := by
  unfold glueParams at hx
  by_cases hb : p.params = []
  · rw [if_neg (by simp [hb])] at hx
    exact Or.inl hx
  · rw [if_pos hb] at hx
    rcases List.mem_append.mp hx with h | h
    · exact Or.inl h
    · rcases List.mem_cons.mp h with h | h
      · exact Or.inr (Or.inl h)
      · exact Or.inr (Or.inr h)

theorem queryPart_mem {p : URLParts} {x : Char} (hx : x ∈ queryPart p) :
    x = '?' ∨ x ∈ p.query := by
  unfold queryPart at hx
  by_cases hb : p.query ≠ []
  · rw [if_pos hb] at hx
    exact List.mem_cons.mp hx
  · rw [if_neg hb] at hx
    simp at hx

theorem slashGlue_mem {p : URLParts} {x : Char} (hx : x ∈ slashGlue p) :
    x = '/' ∨ x ∈ glueParams p := by
  unfold slashGlue at hx
  split at hx
  · exact List.mem_cons.mp hx
  · exact Or.inr hx

theorem netBody_mem {p : URLParts} {x : Char} (hx : x ∈ netBody p) :
    x = '/' ∨ x ∈ p.netloc ∨ x ∈ glueParams p := by
  unfold netBody at hx
  split at hx
  · rcases List.mem_cons.mp hx with h | h
    · exact Or.inl h
    · rcases List.mem_cons.mp h with h | h
      · exact Or.inl h
      · rcases List.mem_append.mp h with h | h
        · exact Or.inr (Or.inl h)
        · rcases slashGlue_mem h with h | h
          · exact Or.inl h
          · exact Or.inr (Or.inr h)
  · exact Or.inr (Or.inr hx)

theorem schemeGuard_mem {s : List Char} (hg : schemeGuard s = true) {d : Char}
    (hd : d ∈ s) : d.isAlpha = true ∨ isSchemeChar d = true := by
  rcases s with _ | ⟨c, cs⟩
  · simp at hd
  · simp only [schemeGuard, Bool.and_eq_true] at hg
    rcases List.mem_cons.mp hd with rfl | h
    · exact Or.inl hg.1
    · exact Or.inr (List.all_eq_true.mp hg.2 d h)

theorem schemeGuard_no_colon {s : List Char} (hg : schemeGuard s = true) :
    ':' ∉ s := by
  intro hm
  rcases schemeGuard_mem hg hm with h | h
  · exact absurd h (by decide)
  · exact absurd h (by decide)

theorem unparse_safe {p : URLParts} (hp : ParseShape p) (hfr : p.fragment = []) :
    ∀ x ∈ pyUrlunparseL p, isUnsafeUrlChar x = false := by
  intro x hx
  rw [unparse_decomp hfr] at hx
  rcases List.mem_append.mp hx with h | h
  · unfold schemePart at h
    split at h
    · rcases List.mem_append.mp h with h | h
      · exact hp.safe_scheme x h
      · simp at h
        rw [h]
        decide
    · simp at h
  · rcases List.mem_append.mp h with h | h
    · rcases netBody_mem h with h | h | h
      · rw [h]
        decide
      · exact hp.safe_netloc x h
      · rcases glueParams_mem h with h | h | h
        · exact hp.safe_path x h
        · rw [h]
          decide
        · exact hp.safe_params x h
    · rcases queryPart_mem h with h | h
      · rw [h]
        decide
      · exact hp.safe_query x h

theorem glueParams_no_hash {p : URLParts} (hp : ParseShape p) :
    '#' ∉ glueParams p := by
  intro hm
  rcases glueParams_mem hm with h | h | h
  · exact hp.path_no_hash h
  · exact absurd h (by decide)
  · exact hp.params_no_hash h

theorem glueParams_no_q {p : URLParts} (hp : ParseShape p) :
    '?' ∉ glueParams p := by
  intro hm
  rcases glueParams_mem hm with h | h | h
  · exact hp.path_no_q h
  · exact absurd h (by decide)
  · exact hp.params_no_q h

theorem slashGlue_no_hash {p : URLParts} (hp : ParseShape p) :
    '#' ∉ slashGlue p := by
  intro hm
  rcases slashGlue_mem hm with h | h
  · exact absurd h (by decide)
  · exact glueParams_no_hash hp h

theorem slashGlue_no_q {p : URLParts} (hp : ParseShape p) :
    '?' ∉ slashGlue p := by
  intro hm
  rcases slashGlue_mem hm with h | h
  · exact absurd h (by decide)
  · exact glueParams_no_q hp h

theorem queryPart_no_hash {p : URLParts} (hp : ParseShape p) :
    '#' ∉ queryPart p := by
  intro hm
  rcases queryPart_mem hm with h | h
  · exact absurd h (by decide)
  · exact hp.query_no_hash h

theorem take2_append_ne {A B : List Char} (hA : A.take 2 ≠ ['/', '/'])
    (hB : B = [] ∨ ∃ b bs, B = b :: bs ∧ b ≠ '/') :
    (A ++ B).take 2 ≠ ['/', '/'] := by
  rcases A with _ | ⟨a1, A1⟩
  · rcases hB with rfl | ⟨b, bs, rfl, hb⟩
    · simp
    · intro he
      have hr : ((b :: bs : List Char)).take 2 = b :: bs.take 1 := rfl
      rw [List.nil_append, hr] at he
      injection he with h1 _
      exact hb h1
  · rcases A1 with _ | ⟨a2, A2⟩
    · intro he
      have hr : (([a1] : List Char) ++ B).take 2 = a1 :: B.take 1 := rfl
      rw [hr] at he
      injection he with h1 h2
      rcases hB with rfl | ⟨b, bs, rfl, hb⟩
      · simp at h2
      · have hr2 : ((b :: bs : List Char)).take 1 = [b] := rfl
        rw [hr2] at h2
        injection h2 with h3 _
        exact hb h3
    · intro he
      apply hA
      have hr : ((a1 :: a2 :: A2 : List Char) ++ B).take 2 = [a1, a2] := rfl
      have hr2 : ((a1 :: a2 :: A2 : List Char)).take 2 = [a1, a2] := rfl
      rw [hr] at he
      rw [hr2, he]

theorem urlsplit_compute {url cl S R N R2 F1 F2 Q1 Q2 : List Char}
    (h0 : pyCleanUrl url = cl)
    (h1 : schemeSplit cl = (S, R))
    (h2 : netlocSplit R = (N, R2))
    (h3 : netlocChecks N = .ok ())
    (h4 : splitPy '#' R2 = (F1, F2))
    (h5 : splitPy '?' F1 = (Q1, Q2)) :
    pyUrlsplitL url = .ok ⟨S, N, Q1, [], Q2, F2⟩ := by
  unfold pyUrlsplitL
  dsimp only
  rw [h0, h1]
  dsimp only
  rw [h2]
  dsimp only
  rw [h3]
  dsimp only
  rw [h4]
  dsimp only
  rw [h5]

theorem urlparse_of_guard_false {url : List Char} {q : URLParts}
    (h : pyUrlsplitL url = .ok q)
    (hg : ¬(String.mk q.scheme ∈ usesParams ∧ ';' ∈ q.path)) :
    pyUrlparseL url = .ok q := by
  unfold pyUrlparseL
  rw [h]
  dsimp only
  rw [if_neg hg]

theorem urlparse_of_guard_true {url : List Char} {q : URLParts} {a b : List Char}
    (h : pyUrlsplitL url = .ok q)
    (hg : String.mk q.scheme ∈ usesParams ∧ ';' ∈ q.path)
    (hs : splitparamsL q.path = (a, b)) :
    pyUrlparseL url = .ok { q with path := a, params := b } := by
  unfold pyUrlparseL
  rw [h]
  dsimp only
  rw [if_pos hg, hs]

/-- Re-parsing a reassembled body: the params stage either leaves the glued
body alone or re-splits it back into the original path/params, so the glue
of the result is the body itself. -/
theorem reparse_params {p : URLParts} (hp : ParseShape p) {url body0 : List Char}
    (hb : body0 = glueParams p ∨ body0 = '/' :: glueParams p)
    (hq2 : pyUrlsplitL url = .ok ⟨p.scheme, p.netloc, body0, [], p.query, []⟩) :
    ∃ p2, pyUrlparseL url = .ok p2 ∧
      p2.scheme = p.scheme ∧ p2.netloc = p.netloc ∧ glueParams p2 = body0 ∧
      p2.query = p.query ∧ p2.fragment = [] := by
  by_cases hg : String.mk p.scheme ∈ usesParams ∧ ';' ∈ body0
  · have hsemi_glue : ';' ∈ glueParams p := by
      rcases hb with rfl | rfl
      · exact hg.2
      · rcases List.mem_cons.mp hg.2 with h | h
        · exact absurd h (by decide)
        · exact h
    have hres := hp.params_resplit hg.1 hsemi_glue
    rcases hb with rfl | rfl
    · refine ⟨_, urlparse_of_guard_true hq2 hg hres, rfl, rfl, ?_, rfl, rfl⟩
      unfold glueParams
      rfl
    · have hres2 : splitparamsL ('/' :: glueParams p) = ('/' :: p.path, p.params) :=
        splitparams_cons_slash hres
      refine ⟨_, urlparse_of_guard_true hq2 hg hres2, rfl, rfl, ?_, rfl, rfl⟩
      unfold glueParams
      dsimp only
      by_cases hb2 : p.params = []
      · rw [if_neg (by simp [hb2]), if_neg (by simp [hb2])]
      · rw [if_pos hb2, if_pos hb2]
        simp
  · refine ⟨_, urlparse_of_guard_false hq2 hg, rfl, rfl, ?_, rfl, rfl⟩
    unfold glueParams
    dsimp only
    rw [if_neg (by simp)]

/-- Round-trip stability: re-parsing the reassembled URL succeeds and
reassembles to the same string, with the scheme and query preserved and an
empty fragment, as long as an empty netloc is not combined with a glued
path starting in `//` (the one case in which `urlunparse` output starts a
spurious netloc). -/
theorem parse_unparse_stable {p : URLParts} (hp : ParseShape p)
    (hfr : p.fragment = [])
    (hss : ¬(p.netloc = [] ∧ (glueParams p).take 2 = ['/', '/'])) :
    ∃ p2, pyUrlparseL (pyUrlunparseL p) = .ok p2 ∧
      pyUrlunparseL p2 = pyUrlunparseL p ∧ p2.fragment = [] ∧
      p2.query = p.query ∧ p2.scheme = p.scheme := by
  have hdec := unparse_decomp hfr
  have hsafeU := unparse_safe hp hfr
  -- the cleaning pass is the identity on the reassembled URL
  have hhead : (pyUrlunparseL p).dropWhile isC0OrSpace = pyUrlunparseL p := by
    rw [hdec]
    by_cases hs : p.scheme = []
    · have hsp : schemePart p = [] := by simp [schemePart, hs]
      rw [hsp, List.nil_append]
      by_cases hc : (p.netloc ≠ [] ∨ (p.scheme ≠ [] ∧ String.mk p.scheme ∈ usesNetloc ∧
          (glueParams p).take 2 ≠ ['/', '/']))
      · unfold netBody
        rw [if_pos hc]
        simp only [List.cons_append]
        exact dropWhile_cons_of_neg (by decide) _
      · have hnl : p.netloc = [] := by
          by_contra hne
          exact hc (Or.inl hne)
        unfold netBody
        rw [if_neg hc]
        exact hp.empty_head hs hnl
    · have hg : schemeGuard p.scheme = true := by
        rcases hp.scheme_shape with h | h
        · exact absurd h hs
        · exact h
      rcases hsv : p.scheme with _ | ⟨c, cs⟩
      · exact absurd hsv hs
      · have hca : c.isAlpha = true := by
          rw [hsv] at hg
          simp only [schemeGuard, Bool.and_eq_true] at hg
          exact hg.1
        unfold schemePart
        rw [if_pos hs, hsv]
        simp only [List.cons_append, List.append_assoc]
        exact dropWhile_cons_of_neg (isAlpha_not_c0 hca) _
  have hclean : pyCleanUrl (pyUrlunparseL p) = pyUrlunparseL p := by
    unfold pyCleanUrl
    rw [hhead]
    apply filter_eq_self_of_all
    intro x hx
    simp [hsafeU x hx]
  -- the scheme splits back off
  have hB : schemeSplit (pyUrlunparseL p) = (p.scheme, netBody p ++ queryPart p) := by
    by_cases hs : p.scheme = []
    · rw [hdec]
      have hsp : schemePart p = [] := by simp [schemePart, hs]
      rw [hsp, List.nil_append]
      by_cases hc : (p.netloc ≠ [] ∨ (p.scheme ≠ [] ∧ String.mk p.scheme ∈ usesNetloc ∧
          (glueParams p).take 2 ≠ ['/', '/']))
      · unfold netBody
        rw [if_pos hc]
        simp only [List.cons_append]
        rw [hs]
        exact schemeSplit_head_not_alpha (by decide) _
      · have hnl : p.netloc = [] := by
          by_contra hne
          exact hc (Or.inl hne)
        unfold netBody
        rw [if_neg hc, hs]
        exact hp.empty_noscheme hs hnl
    · have hg : schemeGuard p.scheme = true := by
        rcases hp.scheme_shape with h | h
        · exact absurd h hs
        · exact h
      have hsplit1 : splitOnFirst ':' (pyUrlunparseL p) =
          (p.scheme, some (netBody p ++ queryPart p)) := by
        rw [hdec]
        unfold schemePart
        rw [if_pos hs, List.append_assoc, List.singleton_append]
        exact splitOnFirst_append (schemeGuard_no_colon hg)
      have hpos := schemeSplit_pos hsplit1 hg
      rw [hp.scheme_lower] at hpos
      exact hpos
  have hqpShape : queryPart p = [] ∨ ∃ b bs, queryPart p = b :: bs ∧ b ≠ '/' := by
    unfold queryPart
    by_cases hqv : p.query ≠ []
    · rw [if_pos hqv]
      exact Or.inr ⟨'?', p.query, rfl, by decide⟩
    · rw [if_neg hqv]
      exact Or.inl rfl
  by_cases hc : (p.netloc ≠ [] ∨ (p.scheme ≠ [] ∧ String.mk p.scheme ∈ usesNetloc ∧
      (glueParams p).take 2 ≠ ['/', '/']))
  · -- the `//`-insertion branch of urlunsplit
    have hnb : netBody p = '/' :: '/' :: (p.netloc ++ slashGlue p) := by
      unfold netBody
      rw [if_pos hc]
    have hsgHead : slashGlue p ++ queryPart p = [] ∨
        ∃ z zs, slashGlue p ++ queryPart p = z :: zs ∧ isNetlocChar z = false := by
      unfold slashGlue
      by_cases h1 : glueParams p ≠ [] ∧ (glueParams p).take 1 ≠ ['/']
      · rw [if_pos h1]
        exact Or.inr ⟨'/', glueParams p ++ queryPart p, by simp, by decide⟩
      · rw [if_neg h1]
        rcases hgv : glueParams p with _ | ⟨g, gs⟩
        · rw [List.nil_append]
          unfold queryPart
          by_cases hqv : p.query ≠ []
          · rw [if_pos hqv]
            exact Or.inr ⟨'?', p.query, rfl, by decide⟩
          · rw [if_neg hqv]
            exact Or.inl rfl
        · have hg1 : (glueParams p).take 1 = ['/'] := by
            rcases not_and_or.mp h1 with h | h
            · rw [not_not.mp h] at hgv
              simp at hgv
            · exact not_not.mp h
          rw [hgv] at hg1
          have hgc : g = '/' := by
            have hr : ((g :: gs : List Char)).take 1 = [g] := rfl
            rw [hr] at hg1
            injection hg1 with h2 _
          refine Or.inr ⟨'/', gs ++ queryPart p, ?_, by decide⟩
          rw [← hgc]
          rfl
    have hW1 : (slashGlue p ++ queryPart p).takeWhile isNetlocChar = [] := by
      rcases hsgHead with h | ⟨z, zs, he, hz⟩
      · rw [h]
        rfl
      · rw [he]
        exact takeWhile_cons_of_neg hz zs
    have hW2 : (slashGlue p ++ queryPart p).dropWhile isNetlocChar =
        slashGlue p ++ queryPart p := dropWhile_eq_self_of_head hsgHead
    have hC : netlocSplit (netBody p ++ queryPart p) =
        (p.netloc, slashGlue p ++ queryPart p) := by
      rw [hnb]
      simp only [List.cons_append, List.append_assoc]
      rw [netlocSplit_cons2, takeWhile_append_of_all hp.netloc_chars,
        dropWhile_append_of_all hp.netloc_chars, hW1, hW2]
      simp
    have hT_no_hash : '#' ∉ slashGlue p ++ queryPart p := by
      intro hm
      rcases List.mem_append.mp hm with h | h
      · exact slashGlue_no_hash hp h
      · exact queryPart_no_hash hp h
    have hD : splitPy '#' (slashGlue p ++ queryPart p) =
        (slashGlue p ++ queryPart p, []) := splitPy_of_not_mem hT_no_hash
    have hE : splitPy '?' (slashGlue p ++ queryPart p) =
        (slashGlue p, p.query) := by
      unfold queryPart
      by_cases hqv : p.query ≠ []
      · rw [if_pos hqv]
        exact splitPy_append (slashGlue_no_q hp)
      · rw [if_neg hqv]
        rw [List.append_nil, not_not.mp hqv]
        exact splitPy_of_not_mem (slashGlue_no_q hp)
    have hsplit : pyUrlsplitL (pyUrlunparseL p) =
        .ok ⟨p.scheme, p.netloc, slashGlue p, [], p.query, []⟩ :=
      urlsplit_compute hclean hB hC hp.netloc_ok hD hE
    have hbsg : slashGlue p = glueParams p ∨ slashGlue p = '/' :: glueParams p := by
      unfold slashGlue
      split
      · exact Or.inr rfl
      · exact Or.inl rfl
    obtain ⟨p2, hp2, hp2s, hp2n, hp2g, hp2q, hp2f⟩ := reparse_params hp hbsg hsplit
    refine ⟨p2, hp2, ?_, hp2f, hp2q, hp2s⟩
    rw [unparse_decomp hp2f, hdec]
    have hsp2 : schemePart p2 = schemePart p := by
      unfold schemePart
      rw [hp2s]
    have hqp2 : queryPart p2 = queryPart p := by
      unfold queryPart
      rw [hp2q]
    have hnb2 : netBody p2 = netBody p := by
      rcases hbsg with hsg | hsg
      · have hgg : glueParams p2 = glueParams p := by rw [hp2g, hsg]
        unfold netBody slashGlue
        rw [hp2s, hp2n, hgg]
      · have hgg : glueParams p2 = '/' :: glueParams p := by rw [hp2g, hsg]
        have hcond2 : glueParams p ≠ [] ∧ (glueParams p).take 1 ≠ ['/'] := by
          by_contra hcc
          have hse : slashGlue p = glueParams p := by
            unfold slashGlue
            rw [if_neg hcc]
          rw [hse] at hsg
          have hlen := congrArg List.length hsg
          simp at hlen
        have hnl0 : p.netloc = [] := by
          by_contra hne
          rcases hp.netloc_path hne with ⟨hpe, hpr⟩ | h1
          · apply hcond2.1
            unfold glueParams
            rw [if_neg (by simp [hpr]), hpe]
          · apply hcond2.2
            unfold glueParams
            rcases hpv : p.path with _ | ⟨a, as⟩
            · rw [hpv] at h1
              simp at h1
            · rw [hpv] at h1
              have ha : a = '/' := by
                have hr : ((a :: as : List Char)).take 1 = [a] := rfl
                rw [hr] at h1
                injection h1 with h2 _
              by_cases hb2 : p.params ≠ []
              · rw [if_pos hb2, ha]
                rfl
              · rw [if_neg hb2, ha]
                rfl
        have hsch : p.scheme ≠ [] ∧ String.mk p.scheme ∈ usesNetloc ∧
            (glueParams p).take 2 ≠ ['/', '/'] := by
          rcases hc with h | h
          · exact absurd hnl0 h
          · exact h
        rcases hgv : glueParams p with _ | ⟨g, gs⟩
        · exact absurd hgv hcond2.1
        · have hgne : g ≠ '/' := by
            intro heq
            apply hcond2.2
            rw [hgv, heq]
            rfl
          have hcondp2 : p2.netloc ≠ [] ∨ (p2.scheme ≠ [] ∧
              String.mk p2.scheme ∈ usesNetloc ∧
              (glueParams p2).take 2 ≠ ['/', '/']) := by
            right
            refine ⟨by rw [hp2s]; exact hsch.1, by rw [hp2s]; exact hsch.2.1, ?_⟩
            rw [hgg, hgv]
            intro he
            have hr : (('/' :: g :: gs : List Char)).take 2 = ['/', g] := rfl
            rw [hr] at he
            injection he with _ h2
            injection h2 with h3 _
            exact hgne h3
          have hL : netBody p2 = '/' :: '/' :: (p2.netloc ++ slashGlue p2) := by
            unfold netBody
            rw [if_pos hcondp2]
          have hsg2 : slashGlue p2 = '/' :: glueParams p := by
            unfold slashGlue
            rw [hgg]
            rw [if_neg (fun hcc => hcc.2 rfl)]
          rw [hL, hnb, hp2n, hsg2, hsg]
    rw [hsp2, hqp2, hnb2]
  · -- no `//` is inserted: the body is the glued path itself
    have hnl0 : p.netloc = [] := by
      by_contra hne
      exact hc (Or.inl hne)
    have hnb : netBody p = glueParams p := by
      unfold netBody
      rw [if_neg hc]
    have htake2 : (glueParams p ++ queryPart p).take 2 ≠ ['/', '/'] :=
      take2_append_ne (fun h => hss ⟨hnl0, h⟩) hqpShape
    have hC : netlocSplit (netBody p ++ queryPart p) =
        (p.netloc, glueParams p ++ queryPart p) := by
      rw [hnb, hnl0]
      exact netlocSplit_other htake2
    have hnok : netlocChecks p.netloc = .ok () := by
      rw [hnl0]
      rfl
    have hT_no_hash : '#' ∉ glueParams p ++ queryPart p := by
      intro hm
      rcases List.mem_append.mp hm with h | h
      · exact glueParams_no_hash hp h
      · exact queryPart_no_hash hp h
    have hD : splitPy '#' (glueParams p ++ queryPart p) =
        (glueParams p ++ queryPart p, []) := splitPy_of_not_mem hT_no_hash
    have hE : splitPy '?' (glueParams p ++ queryPart p) =
        (glueParams p, p.query) := by
      unfold queryPart
      by_cases hqv : p.query ≠ []
      · rw [if_pos hqv]
        exact splitPy_append (glueParams_no_q hp)
      · rw [if_neg hqv]
        rw [List.append_nil, not_not.mp hqv]
        exact splitPy_of_not_mem (glueParams_no_q hp)
    have hsplit : pyUrlsplitL (pyUrlunparseL p) =
        .ok ⟨p.scheme, p.netloc, glueParams p, [], p.query, []⟩ :=
      urlsplit_compute hclean hB hC hnok hD hE
    obtain ⟨p2, hp2, hp2s, hp2n, hp2g, hp2q, hp2f⟩ :=
      reparse_params hp (Or.inl rfl) hsplit
    refine ⟨p2, hp2, ?_, hp2f, hp2q, hp2s⟩
    rw [unparse_decomp hp2f, hdec]
    have hsp2 : schemePart p2 = schemePart p := by
      unfold schemePart
      rw [hp2s]
    have hqp2 : queryPart p2 = queryPart p := by
      unfold queryPart
      rw [hp2q]
    have hnb2 : netBody p2 = netBody p := by
      unfold netBody slashGlue
      rw [hp2s, hp2n, hp2g]
    rw [hsp2, hqp2, hnb2]

/-! ## Crawl-layer frame lemmas -/

theorem goodResult_mk {ks : List String} (hk : ks ≠ []) {lt : String}
    (hl : lt = "direct_url" ∨ lt = "redirected_url" ∨ lt = "content")
    (a b c d e : String) : goodResult ⟨a, b, ks, lt, c, d, e⟩ = true := by
  rcases ks with _ | ⟨k, ks'⟩
  · exact absurd rfl hk
  · rcases hl with rfl | rfl | rfl <;> rfl

theorem all_good_append {rs : List PyResult} (h : rs.all goodResult = true)
    {r : PyResult} (hr : goodResult r = true) :
    (rs ++ [r]).all goodResult = true := by
  simp [List.all_append, h, hr]

theorem add_result_frame (st : CrawlState) (a b c d e : String)
    (ks : List String) (lt : String) :
    (add_result st a b c d e ks lt).visited = st.visited ∧
    (add_result st a b c d e ks lt).queue = st.queue ∧
    (add_result st a b c d e ks lt).pagesCrawled = st.pagesCrawled ∧
    (add_result st a b c d e ks lt).enqueuedHistory = st.enqueuedHistory :=
  ⟨rfl, rfl, rfl, rfl⟩

theorem check_url_frame (cfg : Cfg) (env : Env) (st : CrawlState) (url src : String) :
    (check_url_for_keywords cfg env st url src).1.visited = st.visited ∧
    (check_url_for_keywords cfg env st url src).1.queue = st.queue ∧
    (check_url_for_keywords cfg env st url src).1.pagesCrawled = st.pagesCrawled ∧
    (check_url_for_keywords cfg env st url src).1.enqueuedHistory =
      st.enqueuedHistory ∧
    (st.results.all goodResult = true →
      (check_url_for_keywords cfg env st url src).1.results.all goodResult = true) := by
  unfold check_url_for_keywords
  by_cases h1 : url = ""
  · rw [if_pos h1]
    exact ⟨rfl, rfl, rfl, rfl, fun h => h⟩
  · rw [if_neg h1]
    by_cases h2 : url ∈ st.checked
    · rw [if_pos h2]
      exact ⟨rfl, rfl, rfl, rfl, fun h => h⟩
    · rw [if_neg h2]
      dsimp only
      by_cases hmk : get_matched_keywords cfg.keywords (some url) ≠ []
      · rw [if_pos hmk]
        rcases hL : looks_like_affiliate_url cfg.keywords url with e | b
        · exact ⟨rfl, rfl, rfl, rfl, fun h =>
            all_good_append h (goodResult_mk hmk (Or.inl rfl) _ _ _ _ _)⟩
        · rcases b with _ | _
          · exact ⟨rfl, rfl, rfl, rfl, fun h =>
              all_good_append h (goodResult_mk hmk (Or.inl rfl) _ _ _ _ _)⟩
          · dsimp only
            by_cases hr : (resolve_redirects env.head
                (add_result { st with checked := st.checked ++ [url] }
                  src url "url" "href" url
                  (get_matched_keywords cfg.keywords (some url))
                  "direct_url").redirectCache url).1 ≠ url
            · rw [if_pos hr]
              by_cases hmkf : get_matched_keywords cfg.keywords
                  (some (resolve_redirects env.head
                    (add_result { st with checked := st.checked ++ [url] }
                      src url "url" "href" url
                      (get_matched_keywords cfg.keywords (some url))
                      "direct_url").redirectCache url).1) ≠ []
              · rw [if_pos hmkf]
                refine ⟨rfl, rfl, rfl, rfl, fun h => ?_⟩
                exact all_good_append
                  (all_good_append h (goodResult_mk hmk (Or.inl rfl) _ _ _ _ _))
                  (goodResult_mk hmkf (Or.inr (Or.inl rfl)) _ _ _ _ _)
              · rw [if_neg hmkf]
                exact ⟨rfl, rfl, rfl, rfl, fun h =>
                  all_good_append h (goodResult_mk hmk (Or.inl rfl) _ _ _ _ _)⟩
            · rw [if_neg hr]
              exact ⟨rfl, rfl, rfl, rfl, fun h =>
                all_good_append h (goodResult_mk hmk (Or.inl rfl) _ _ _ _ _)⟩
      · rw [if_neg hmk]
        rcases hL : looks_like_affiliate_url cfg.keywords url with e | b
        · exact ⟨rfl, rfl, rfl, rfl, fun h => h⟩
        · rcases b with _ | _
          · exact ⟨rfl, rfl, rfl, rfl, fun h => h⟩
          · dsimp only
            by_cases hr : (resolve_redirects env.head
                { st with checked := st.checked ++ [url] }.redirectCache url).1 ≠ url
            · rw [if_pos hr]
              by_cases hmkf : get_matched_keywords cfg.keywords
                  (some (resolve_redirects env.head
                    { st with checked := st.checked ++ [url] }.redirectCache url).1) ≠ []
              · rw [if_pos hmkf]
                exact ⟨rfl, rfl, rfl, rfl, fun h =>
                  all_good_append h (goodResult_mk hmkf (Or.inr (Or.inl rfl)) _ _ _ _ _)⟩
              · rw [if_neg hmkf]
                exact ⟨rfl, rfl, rfl, rfl, fun h => h⟩
            · rw [if_neg hr]
              exact ⟨rfl, rfl, rfl, rfl, fun h => h⟩

theorem checkTargets_frame (cfg : Cfg) (env : Env) (src : String) :
    ∀ (ts : List String) (st : CrawlState),
    (checkTargets cfg env src st ts).1.visited = st.visited ∧
    (checkTargets cfg env src st ts).1.queue = st.queue ∧
    (checkTargets cfg env src st ts).1.pagesCrawled = st.pagesCrawled ∧
    (checkTargets cfg env src st ts).1.enqueuedHistory = st.enqueuedHistory ∧
    (st.results.all goodResult = true →
      (checkTargets cfg env src st ts).1.results.all goodResult = true) := by
  intro ts
  induction ts with
  | nil =>
    intro st
    exact ⟨rfl, rfl, rfl, rfl, fun h => h⟩
  | cons t ts ih =>
    intro st
    obtain ⟨hv, hq, hp, hh, hres⟩ := check_url_frame cfg env st t src
    unfold checkTargets
    rcases hc : check_url_for_keywords cfg env st t src with ⟨st1, b⟩
    rw [hc] at hv hq hp hh hres
    cases b
    · dsimp only
      exact ⟨hv, hq, hp, hh, hres⟩
    · dsimp only
      obtain ⟨hv2, hq2, hp2, hh2, hres2⟩ := ih st1
      exact ⟨hv2.trans hv, hq2.trans hq, hp2.trans hp, hh2.trans hh,
        fun h => hres2 (hres h)⟩

theorem processAnchors_frame (cfg : Cfg) (env : Env) (src : String) :
    ∀ (anchors : List String) (st : CrawlState) (links : List String),
    (processAnchors cfg env src st links anchors).1.visited = st.visited ∧
    (processAnchors cfg env src st links anchors).1.queue = st.queue ∧
    (processAnchors cfg env src st links anchors).1.pagesCrawled =
      st.pagesCrawled ∧
    (processAnchors cfg env src st links anchors).1.enqueuedHistory =
      st.enqueuedHistory ∧
    (st.results.all goodResult = true →
      (processAnchors cfg env src st links anchors).1.results.all goodResult = true) ∧
    (∀ l ∈ (processAnchors cfg env src st links anchors).2.1,
      env.inScope l = true ∨ l ∈ links) := by
  intro anchors
  induction anchors with
  | nil =>
    intro st links
    exact ⟨rfl, rfl, rfl, rfl, fun h => h, fun l hl => Or.inr hl⟩
  | cons a rest ih =>
    intro st links
    unfold processAnchors
    rcases hn : normalize_url a with e | absolute
    · dsimp only
      exact ⟨rfl, rfl, rfl, rfl, fun h => h, fun l hl => Or.inr hl⟩
    · dsimp only
      by_cases hsc : env.inScope absolute = true
      · rw [if_pos hsc]
        dsimp only
        obtain ⟨hv, hq, hp, hh, hres⟩ := check_url_frame cfg env
          { st with internalLinks := st.internalLinks ++ [absolute] } absolute src
        rcases hc : check_url_for_keywords cfg env
            { st with internalLinks := st.internalLinks ++ [absolute] } absolute src
          with ⟨st2, b⟩
        rw [hc] at hv hq hp hh hres
        cases b
        · dsimp only
          refine ⟨hv, hq, hp, hh, hres, ?_⟩
          intro l hl
          rcases List.mem_append.mp hl with h | h
          · exact Or.inr h
          · rw [List.mem_singleton] at h
            rw [h]
            exact Or.inl hsc
        · dsimp only
          obtain ⟨hv2, hq2, hp2, hh2, hres2, hlinks2⟩ := ih st2 (links ++ [absolute])
          refine ⟨hv2.trans hv, hq2.trans hq, hp2.trans hp, hh2.trans hh,
            fun h => hres2 (hres h), ?_⟩
          intro l hl
          rcases hlinks2 l hl with h | h
          · exact Or.inl h
          · rcases List.mem_append.mp h with h | h
            · exact Or.inr h
            · rw [List.mem_singleton] at h
              rw [h]
              exact Or.inl hsc
      · rw [if_neg hsc]
        dsimp only
        obtain ⟨hv, hq, hp, hh, hres⟩ := check_url_frame cfg env st absolute src
        rcases hc : check_url_for_keywords cfg env st absolute src with ⟨st2, b⟩
        rw [hc] at hv hq hp hh hres
        cases b
        · dsimp only
          exact ⟨hv, hq, hp, hh, hres, fun l hl => Or.inr hl⟩
        · dsimp only
          obtain ⟨hv2, hq2, hp2, hh2, hres2, hlinks2⟩ := ih st2 links
          exact ⟨hv2.trans hv, hq2.trans hq, hp2.trans hp, hh2.trans hh,
            fun h => hres2 (hres h), hlinks2⟩

theorem process_url_frame (cfg : Cfg) (env : Env) (st : CrawlState) (url : String) :
    (process_url cfg env st url).1.queue = st.queue ∧
    (process_url cfg env st url).1.enqueuedHistory = st.enqueuedHistory ∧
    (((process_url cfg env st url).1.visited = st.visited ∧
      (process_url cfg env st url).1.pagesCrawled = st.pagesCrawled ∧
      (process_url cfg env st url).2 = [] ∧
      (url ∈ st.visited ∨ cfg.maxPages ≤ st.pagesCrawled ∨ url = "")) ∨
     (url ∉ st.visited ∧ st.pagesCrawled < cfg.maxPages ∧
      (process_url cfg env st url).1.visited = st.visited ++ [url] ∧
      (process_url cfg env st url).1.pagesCrawled = st.pagesCrawled + 1)) ∧
    (∀ l ∈ (process_url cfg env st url).2, env.inScope l = true) ∧
    (st.results.all goodResult = true →
      (process_url cfg env st url).1.results.all goodResult = true) := by
  unfold process_url
  by_cases hg : url ∈ st.visited ∨ cfg.maxPages ≤ st.pagesCrawled ∨ url = ""
  · rw [if_pos hg]
    exact ⟨rfl, rfl, Or.inl ⟨rfl, rfl, rfl, hg⟩, by simp, fun h => h⟩
  · rw [if_neg hg]
    dsimp only
    push_neg at hg
    obtain ⟨hnv, hlt, hne⟩ := hg
    rcases hpg : env.page url with _ | pg
    · dsimp only
      exact ⟨rfl, rfl, Or.inr ⟨hnv, hlt, rfl, rfl⟩, by simp, fun h => h⟩
    · dsimp only
      by_cases hmk : get_matched_keywords cfg.keywords (some pg.html) ≠ []
      · rw [if_pos hmk]
        obtain ⟨hv3, hq3, hp3, hh3, hres3⟩ := checkTargets_frame cfg env url
          pg.redirectTargets
          (add_result
            { st with
                visited := st.visited ++ [url]
                pagesCrawled := st.pagesCrawled + 1 }
            url url "page_content" "text"
            (String.mk (pg.html.toList.take 200))
            (get_matched_keywords cfg.keywords (some pg.html)) "content")
        rcases hct : checkTargets cfg env url
            (add_result
              { st with
                  visited := st.visited ++ [url]
                  pagesCrawled := st.pagesCrawled + 1 }
              url url "page_content" "text"
              (String.mk (pg.html.toList.take 200))
              (get_matched_keywords cfg.keywords (some pg.html)) "content")
            pg.redirectTargets with ⟨st3, b3⟩
        rw [hct] at hv3 hq3 hp3 hh3 hres3
        cases b3
        · dsimp only
          refine ⟨hq3, hh3, Or.inr ⟨hnv, hlt, hv3, hp3⟩, by simp, fun h => ?_⟩
          exact hres3 (all_good_append h
            (goodResult_mk hmk (Or.inr (Or.inr rfl)) _ _ _ _ _))
        · dsimp only
          obtain ⟨hv4, hq4, hp4, hh4, hres4, hlinks4⟩ :=
            processAnchors_frame cfg env url pg.anchors st3 []
          rcases hpa : processAnchors cfg env url st3 [] pg.anchors
            with ⟨st4, links4, b4⟩
          rw [hpa] at hv4 hq4 hp4 hh4 hres4 hlinks4
          cases b4
          · dsimp only
            refine ⟨hq4.trans hq3, hh4.trans hh3,
              Or.inr ⟨hnv, hlt, hv4.trans hv3, hp4.trans hp3⟩, by simp, fun h => ?_⟩
            exact hres4 (hres3 (all_good_append h
              (goodResult_mk hmk (Or.inr (Or.inr rfl)) _ _ _ _ _)))
          · dsimp only
            refine ⟨hq4.trans hq3, hh4.trans hh3,
              Or.inr ⟨hnv, hlt, hv4.trans hv3, hp4.trans hp3⟩, ?_, fun h => ?_⟩
            · intro l hl
              rcases hlinks4 l hl with h | h
              · exact h
              · simp at h
            · exact hres4 (hres3 (all_good_append h
                (goodResult_mk hmk (Or.inr (Or.inr rfl)) _ _ _ _ _)))
      · rw [if_neg hmk]
        obtain ⟨hv3, hq3, hp3, hh3, hres3⟩ := checkTargets_frame cfg env url
          pg.redirectTargets
          { st with
              visited := st.visited ++ [url]
              pagesCrawled := st.pagesCrawled + 1 }
        rcases hct : checkTargets cfg env url
            { st with
                visited := st.visited ++ [url]
                pagesCrawled := st.pagesCrawled + 1 }
            pg.redirectTargets with ⟨st3, b3⟩
        rw [hct] at hv3 hq3 hp3 hh3 hres3
        cases b3
        · dsimp only
          exact ⟨hq3, hh3, Or.inr ⟨hnv, hlt, hv3, hp3⟩, by simp, fun h => hres3 h⟩
        · dsimp only
          obtain ⟨hv4, hq4, hp4, hh4, hres4, hlinks4⟩ :=
            processAnchors_frame cfg env url pg.anchors st3 []
          rcases hpa : processAnchors cfg env url st3 [] pg.anchors
            with ⟨st4, links4, b4⟩
          rw [hpa] at hv4 hq4 hp4 hh4 hres4 hlinks4
          cases b4
          · dsimp only
            exact ⟨hq4.trans hq3, hh4.trans hh3,
              Or.inr ⟨hnv, hlt, hv4.trans hv3, hp4.trans hp3⟩, by simp,
              fun h => hres4 (hres3 h)⟩
          · dsimp only
            refine ⟨hq4.trans hq3, hh4.trans hh3,
              Or.inr ⟨hnv, hlt, hv4.trans hv3, hp4.trans hp3⟩, ?_,
              fun h => hres4 (hres3 h)⟩
            intro l hl
            rcases hlinks4 l hl with h | h
            · exact h
            · simp at h

theorem enqueueLinks_cons (cfg : Cfg) (st : CrawlState) (l : String)
    (ls : List String) :
    enqueueLinks cfg st (l :: ls) =
      enqueueLinks cfg
        (if l ∉ st.visited ∧ l ∉ st.queue ∧ st.pagesCrawled < cfg.maxPages then
          { st with
              queue := st.queue ++ [l]
              enqueuedHistory := st.enqueuedHistory ++ [l] }
        else st) ls := by
  unfold enqueueLinks
  rw [List.foldl_cons]

theorem enqueueLinks_frame (cfg : Cfg) : ∀ (links : List String) (st : CrawlState),
    (enqueueLinks cfg st links).visited = st.visited ∧
    (enqueueLinks cfg st links).pagesCrawled = st.pagesCrawled ∧
    (enqueueLinks cfg st links).results = st.results := by
  intro links
  induction links with
  | nil =>
    intro st
    exact ⟨rfl, rfl, rfl⟩
  | cons l ls ih =>
    intro st
    rw [enqueueLinks_cons]
    by_cases hc : l ∉ st.visited ∧ l ∉ st.queue ∧ st.pagesCrawled < cfg.maxPages
    · rw [if_pos hc]
      obtain ⟨h1, h2, h3⟩ := ih
        { st with
            queue := st.queue ++ [l]
            enqueuedHistory := st.enqueuedHistory ++ [l] }
      exact ⟨h1, h2, h3⟩
    · rw [if_neg hc]
      exact ih st

theorem enqueueLinks_inv (cfg : Cfg) : ∀ (links : List String) (st : CrawlState),
    QueueInv st → (∀ l ∈ links, l ≠ "") →
    QueueInv (enqueueLinks cfg st links) := by
  intro links
  induction links with
  | nil =>
    intro st h _
    exact h
  | cons l ls ih =>
    intro st hinv hl
    rw [enqueueLinks_cons]
    apply ih
    · by_cases hc : l ∉ st.visited ∧ l ∉ st.queue ∧ st.pagesCrawled < cfg.maxPages
      · rw [if_pos hc]
        obtain ⟨h1, h2, h3, h4, h5, h6⟩ := hinv
        have hlh : l ∉ st.enqueuedHistory := by
          intro hm
          rcases h6 l hm with h | h | h
          · exact hc.1 h
          · exact hc.2.1 h
          · exact hl l (List.mem_cons_self l ls) h
        refine ⟨?_, h2, ?_, ?_, ?_, ?_⟩
        · rw [List.nodup_append]
          exact ⟨h1, List.nodup_singleton l, by simp [hlh]⟩
        · rw [List.nodup_append]
          exact ⟨h3, List.nodup_singleton l, by simp [hc.2.1]⟩
        · intro u hu
          rcases List.mem_append.mp hu with h | h
          · exact List.mem_append.mpr (Or.inl (h4 u h))
          · exact List.mem_append.mpr (Or.inr h)
        · intro u hu
          exact List.mem_append.mpr (Or.inl (h5 u hu))
        · intro u hu
          rcases List.mem_append.mp hu with h | h
          · rcases h6 u h with h' | h' | h'
            · exact Or.inl h'
            · exact Or.inr (Or.inl (List.mem_append.mpr (Or.inl h')))
            · exact Or.inr (Or.inr h')
          · exact Or.inr (Or.inl (List.mem_append.mpr (Or.inr h)))
      · rw [if_neg hc]
        exact hinv
    · intro x hx
      exact hl x (List.mem_cons_of_mem l hx)

theorem crawlStep_inv (cfg : Cfg) (env : Env) (st : CrawlState)
    (hsc : env.inScope "" = false) (hinv : QueueInv st) :
    QueueInv (crawlStep cfg env st) := by
  unfold crawlStep
  rcases hq : st.queue with _ | ⟨url, rest⟩
  · exact hinv
  · dsimp only
    by_cases hb : cfg.maxPages ≤ st.pagesCrawled
    · rw [if_pos hb]
      exact hinv
    · rw [if_neg hb]
      obtain ⟨hpq, hph, hpcase, hplinks, _⟩ :=
        process_url_frame cfg env { st with queue := rest } url
      apply enqueueLinks_inv
      · obtain ⟨h1, h2, h3, h4, h5, h6⟩ := hinv
        rw [hq] at h3 h4 h6
        have h3' : rest.Nodup := (List.nodup_cons.mp h3).2
        rcases hpcase with ⟨hv, _, _, hguard⟩ | ⟨hnv, _, hv, _⟩
        · refine ⟨?_, ?_, ?_, ?_, ?_, ?_⟩
          · rw [hph]
            exact h1
          · rw [hv]
            exact h2
          · rw [hpq]
            exact h3'
          · intro u hu
            rw [hpq] at hu
            rw [hph]
            exact h4 u (List.mem_cons_of_mem url hu)
          · intro u hu
            rw [hv] at hu
            rw [hph]
            exact h5 u hu
          · intro u hu
            rw [hph] at hu
            rcases h6 u hu with h | h | h
            · left
              rw [hv]
              exact h
            · rcases List.mem_cons.mp h with rfl | h
              · rcases hguard with h' | h' | h'
                · left
                  rw [hv]
                  exact h'
                · exact absurd h' hb
                · exact Or.inr (Or.inr h')
              · right
                left
                rw [hpq]
                exact h
            · exact Or.inr (Or.inr h)
        · refine ⟨?_, ?_, ?_, ?_, ?_, ?_⟩
          · rw [hph]
            exact h1
          · rw [hv]
            rw [List.nodup_append]
            exact ⟨h2, List.nodup_singleton url, by simp [hnv]⟩
          · rw [hpq]
            exact h3'
          · intro u hu
            rw [hpq] at hu
            rw [hph]
            exact h4 u (List.mem_cons_of_mem url hu)
          · intro u hu
            rw [hv] at hu
            rw [hph]
            rcases List.mem_append.mp hu with h | h
            · exact h5 u h
            · rw [List.mem_singleton] at h
              rw [h]
              exact h4 url (List.mem_cons_self url rest)
          · intro u hu
            rw [hph] at hu
            rcases h6 u hu with h | h | h
            · left
              rw [hv]
              exact List.mem_append.mpr (Or.inl h)
            · rcases List.mem_cons.mp h with rfl | h
              · left
                rw [hv]
                exact List.mem_append.mpr (Or.inr (List.mem_singleton.mpr rfl))
              · right
                left
                rw [hpq]
                exact h
            · exact Or.inr (Or.inr h)
      · intro l hl
        have hsl := hplinks l hl
        intro he
        rw [he, hsc] at hsl
        exact absurd hsl (by decide)

theorem crawlRun_inv (cfg : Cfg) (env : Env) (hsc : env.inScope "" = false)
    (n : Nat) : QueueInv (crawlRun cfg env n) := by
  induction n with
  | zero =>
    refine ⟨?_, ?_, ?_, ?_, ?_, ?_⟩ <;>
      simp [crawlRun, initState, Function.iterate_zero_apply]
  | succ n ih =>
    unfold crawlRun at ih ⊢
    rw [Function.iterate_succ_apply']
    exact crawlStep_inv cfg env _ hsc ih

theorem crawlStep_results (cfg : Cfg) (env : Env) (st : CrawlState)
    (h : st.results.all goodResult = true) :
    (crawlStep cfg env st).results.all goodResult = true := by
  unfold crawlStep
  rcases hq : st.queue with _ | ⟨url, rest⟩
  · exact h
  · dsimp only
    by_cases hb : cfg.maxPages ≤ st.pagesCrawled
    · rw [if_pos hb]
      exact h
    · rw [if_neg hb]
      obtain ⟨_, _, hrq⟩ := enqueueLinks_frame cfg
        (process_url cfg env { st with queue := rest } url).2
        (process_url cfg env { st with queue := rest } url).1
      rw [hrq]
      obtain ⟨_, _, _, _, hres⟩ :=
        process_url_frame cfg env { st with queue := rest } url
      exact hres h

theorem crawlRun_results (cfg : Cfg) (env : Env) (n : Nat) :
    (crawlRun cfg env n).results.all goodResult = true := by
  induction n with
  | zero => rfl
  | succ n ih =>
    unfold crawlRun at ih ⊢
    rw [Function.iterate_succ_apply']
    exact crawlStep_results cfg env _ ih

theorem crawlStep_pages_le (cfg : Cfg) (env : Env) (st : CrawlState)
    (h : st.pagesCrawled ≤ cfg.maxPages) :
    (crawlStep cfg env st).pagesCrawled ≤ cfg.maxPages := by
  unfold crawlStep
  rcases hq : st.queue with _ | ⟨url, rest⟩
  · exact h
  · dsimp only
    by_cases hb : cfg.maxPages ≤ st.pagesCrawled
    · rw [if_pos hb]
      exact h
    · rw [if_neg hb]
      obtain ⟨_, hpg, _⟩ := enqueueLinks_frame cfg
        (process_url cfg env { st with queue := rest } url).2
        (process_url cfg env { st with queue := rest } url).1
      rw [hpg]
      obtain ⟨_, _, hpcase, _, _⟩ :=
        process_url_frame cfg env { st with queue := rest } url
      rcases hpcase with ⟨_, hp, _, _⟩ | ⟨_, hlt, _, hp⟩
      · rw [hp]
        exact h
      · rw [hp]
        omega

theorem crawlDone_step_id (cfg : Cfg) (env : Env) (st : CrawlState)
    (h : crawlDone cfg st = true) : crawlStep cfg env st = st := by
  unfold crawlDone at h
  unfold crawlStep
  rcases hq : st.queue with _ | ⟨url, rest⟩
  · rfl
  · dsimp only
    rw [hq] at h
    simp only [List.isEmpty_cons, Bool.false_or, decide_eq_true_eq] at h
    rw [if_pos h]

theorem crawlStep_decreases (cfg : Cfg) (env : Env) (st : CrawlState)
    (h : crawlDone cfg st = false) :
    ((crawlStep cfg env st).pagesCrawled = st.pagesCrawled + 1 ∧
      st.pagesCrawled < cfg.maxPages) ∨
    ((crawlStep cfg env st).pagesCrawled = st.pagesCrawled ∧
      (crawlStep cfg env st).queue.length + 1 = st.queue.length) := by
  unfold crawlDone at h
  unfold crawlStep
  rcases hq : st.queue with _ | ⟨url, rest⟩
  · rw [hq] at h
    simp at h
  · rw [hq] at h
    simp only [List.isEmpty_cons, Bool.false_or, decide_eq_false_iff_not] at h
    dsimp only
    rw [if_neg h]
    obtain ⟨hq1, hpg1, _⟩ := enqueueLinks_frame cfg
      (process_url cfg env { st with queue := rest } url).2
      (process_url cfg env { st with queue := rest } url).1
    obtain ⟨hpq, _, hpcase, _, _⟩ :=
      process_url_frame cfg env { st with queue := rest } url
    rcases hpcase with ⟨_, hp, hl0, _⟩ | ⟨_, hlt, _, hp⟩
    · right
      constructor
      · rw [hpg1, hp]
      · rw [hl0]
        have : enqueueLinks cfg (process_url cfg env { st with queue := rest } url).1
            [] = (process_url cfg env { st with queue := rest } url).1 := rfl
        rw [this, hpq]
        rfl
    · left
      exact ⟨by rw [hpg1, hp], hlt⟩

theorem crawlRun_pages_le (cfg : Cfg) (env : Env) (n : Nat) :
    (crawlRun cfg env n).pagesCrawled ≤ cfg.maxPages := by
  induction n with
  | zero => exact Nat.zero_le _
  | succ n ih =>
    unfold crawlRun at ih ⊢
    rw [Function.iterate_succ_apply']
    exact crawlStep_pages_le cfg env _ ih

theorem crawl_term_aux (cfg : Cfg) (env : Env) :
    ∀ a b : Nat, ∀ st : CrawlState,
      cfg.maxPages - st.pagesCrawled ≤ a → st.queue.length ≤ b →
      ∃ n, crawlDone cfg ((crawlStep cfg env)^[n] st) = true := by
  intro a
  induction a with
  | zero =>
    intro b st ha _
    have hle : cfg.maxPages ≤ st.pagesCrawled := by omega
    refine ⟨0, ?_⟩
    simp only [Function.iterate_zero_apply]
    unfold crawlDone
    simp [hle]
  | succ a iha =>
    intro b
    induction b with
    | zero =>
      intro st _ hb
      have hqe : st.queue = [] := List.eq_nil_of_length_eq_zero (Nat.le_zero.mp hb)
      refine ⟨0, ?_⟩
      simp only [Function.iterate_zero_apply]
      unfold crawlDone
      simp [hqe]
    | succ b ihb =>
      intro st ha hb
      by_cases hd : crawlDone cfg st = true
      · exact ⟨0, by simpa using hd⟩
      · have hd' : crawlDone cfg st = false := Bool.eq_false_iff.mpr hd
        rcases crawlStep_decreases cfg env st hd' with ⟨hp, hlt⟩ | ⟨hp, hql⟩
        · obtain ⟨n, hn⟩ := iha ((crawlStep cfg env st).queue.length)
            (crawlStep cfg env st) (by omega) (Nat.le_refl _)
          exact ⟨n + 1, by rw [Function.iterate_succ_apply]; exact hn⟩
        · obtain ⟨n, hn⟩ := ihb (crawlStep cfg env st) (by omega) (by omega)
          exact ⟨n + 1, by rw [Function.iterate_succ_apply]; exact hn⟩

/-! ## `normalize_url` round-trip lemmas -/

theorem clearFragment_eq_self {p : URLParts} (h : p.fragment = []) :
    clearFragment p = p := by
  cases p
  dsimp only at h
  subst h
  rfl

theorem parseShape_clearFragment {p : URLParts} (hp : ParseShape p) :
    ParseShape (clearFragment p) :=
  ⟨hp.scheme_shape, hp.scheme_lower, hp.netloc_chars, hp.netloc_ok,
   hp.path_no_hash, hp.path_no_q, hp.params_no_hash, hp.params_no_q,
   hp.params_no_slash, hp.query_no_hash, hp.safe_scheme, hp.safe_netloc,
   hp.safe_path, hp.safe_params, hp.safe_query, hp.netloc_path,
   hp.params_scheme, hp.params_resplit, hp.empty_noscheme, hp.empty_head⟩

theorem unparse_no_hash {p : URLParts} (hp : ParseShape p)
    (hfr : p.fragment = []) : '#' ∉ pyUrlunparseL p := by
  intro hm
  rw [unparse_decomp hfr] at hm
  rcases List.mem_append.mp hm with h | h
  · unfold schemePart at h
    split at h
    · rcases List.mem_append.mp h with h | h
      · rcases hp.scheme_shape with hs | hs
        · rw [hs] at h
          simp at h
        · rcases schemeGuard_mem hs h with h2 | h2
          · exact absurd h2 (by decide)
          · exact absurd h2 (by decide)
      · rw [List.mem_singleton] at h
        exact absurd h (by decide)
    · simp at h
  · rcases List.mem_append.mp h with h | h
    · rcases netBody_mem h with h | h | h
      · exact absurd h (by decide)
      · exact absurd (hp.netloc_chars '#' h) (by decide)
      · exact glueParams_no_hash hp h
    · exact queryPart_no_hash hp h

theorem netlocChecks_err {nl : List Char} {e : String}
    (h : netlocChecks nl = .error e) :
    e = "Invalid IPv6 URL" ∨ e = "invalid bracketed host" := by
  unfold netlocChecks at h
  split at h
  · left
    exact (Except.error.injEq .. ▸ h).symm
  · split at h
    · dsimp only at h
      split at h
      · simp at h
      · right
        exact (Except.error.injEq .. ▸ h).symm
    · simp at h

theorem urlsplit_err {u : List Char} {e : String}
    (h : pyUrlsplitL u = .error e) :
    e = "Invalid IPv6 URL" ∨ e = "invalid bracketed host" := by
  unfold pyUrlsplitL at h
  dsimp only at h
  rcases hnc : netlocChecks
      (netlocSplit (schemeSplit (pyCleanUrl u)).2).1 with e2 | v <;>
    rw [hnc] at h <;> dsimp only at h
  · simp only [Except.error.injEq] at h
    rw [← h]
    exact netlocChecks_err hnc
  · simp at h

theorem urlparse_err {u : List Char} {e : String}
    (h : pyUrlparseL u = .error e) :
    e = "Invalid IPv6 URL" ∨ e = "invalid bracketed host" := by
  unfold pyUrlparseL at h
  rcases hq : pyUrlsplitL u with e2 | q <;> rw [hq] at h <;> dsimp only at h
  · simp only [Except.error.injEq] at h
    rw [← h]
    exact urlsplit_err hq
  · split at h <;> simp at h

/-- The shared core of the `normalize_url` stability results: when the parse
succeeds, the reassembled fragment-free URL does not end in `/` and the
empty-netloc/`//`-glue corner is excluded, `normalize_url` returns the
reassembled URL, that URL re-parses to components with the same scheme and
query and an empty fragment, and it is a fixed point of `normalize_url`. -/
theorem normalize_stable_core (u : String) (p : URLParts)
    (hparse : pyUrlparseL u.toList = .ok p)
    (hnt : (pyUrlunparseL (clearFragment p)).getLast? ≠ some '/')
    (hss : ¬(p.netloc = [] ∧ (glueParams (clearFragment p)).take 2 = ['/', '/'])) :
    ∃ p2,
      normalize_url u = .ok (String.mk (pyUrlunparseL (clearFragment p))) ∧
      pyUrlparseL (pyUrlunparseL (clearFragment p)) = .ok p2 ∧
      pyUrlunparseL p2 = pyUrlunparseL (clearFragment p) ∧
      p2.fragment = [] ∧ p2.query = p.query ∧ p2.scheme = p.scheme ∧
      normalize_url (String.mk (pyUrlunparseL (clearFragment p))) =
        .ok (String.mk (pyUrlunparseL (clearFragment p))) := by
  have hp0 := parseShape_of_ok hparse
  have hp' := parseShape_clearFragment hp0
  have hfr' : (clearFragment p).fragment = [] := rfl
  obtain ⟨p2, hok, hunp, hf2, hq2, hs2⟩ := parse_unparse_stable hp' hfr' hss
  have hn1 : normalize_url u = .ok (String.mk (pyUrlunparseL (clearFragment p))) := by
    unfold normalize_url
    rw [hparse]
    dsimp only
    rw [if_neg hnt]
  have htl : (String.mk (pyUrlunparseL (clearFragment p))).toList =
      pyUrlunparseL (clearFragment p) := rfl
  have hfix : normalize_url (String.mk (pyUrlunparseL (clearFragment p))) =
      .ok (String.mk (pyUrlunparseL (clearFragment p))) := by
    unfold normalize_url
    rw [htl, hok]
    dsimp only
    rw [clearFragment_eq_self hf2, hunp]
    rw [if_neg hnt]
  exact ⟨p2, hn1, hok, hunp, hf2, hq2, hs2, hfix⟩

/-! ## Claim theorems -/

/-- Claim C1 (amended): `resolve_redirects` performs at most one HTTP-level
hop — on an empty cache its answer is exactly the HTTP client's reported
final URL, or the input URL when the request fails — and caches the answer,
so a second resolution of the same URL returns the cached value whatever the
network then does.  It never inspects a page body and has no depth bound. -/
theorem resolve_redirects_amended (head : String → Option String) (url : String) :
    (resolve_redirects head [] url).1 = (head url).getD url ∧
    (∀ head2, resolve_redirects head2 (resolve_redirects head [] url).2 url =
      ((resolve_redirects head [] url).1, (resolve_redirects head [] url).2)) := by
  rcases hh : head url with _ | f
  · constructor
    · simp [resolve_redirects, hh]
    · intro head2
      simp [resolve_redirects, hh, List.lookup]
  · constructor
    · simp [resolve_redirects, hh]
    · intro head2
      simp [resolve_redirects, hh, List.lookup]

/-- Claim C1 (counterexample): on a URL whose fetch does not redirect at the
HTTP level but whose body names a content-level target, the source's
`resolve_redirects` returns the URL unchanged, while the resolver described
by the spec (modelled by `resolve_spec`) follows the content-level hop. -/
theorem resolve_redirects_counterexample :
    (resolve_redirects (fun _ => none) [] "http://a/r").1 = "http://a/r" ∧
    resolve_spec (fun _ => none)
      (fun u => if u = "http://a/r" then some "http://b/final" else none)
      5 [] "http://a/r" = "http://b/final" ∧
    ("http://a/r" : String) ≠ "http://b/final" := by
  exact ⟨by decide, by decide, by decide⟩

/-- Claim C2 (amended): the classifier's host rules are Python substring
tests (`s in netloc`), not equals-or-suffix tests: any URL whose (lowered)
host merely contains a known shortener domain as a substring is classified
`True`.  The claim's concrete anchors hold: `http://bit.ly/abc` is a
candidate, `http://example.com/about` is not. -/
theorem affiliate_classifier_amended (kws : List String) (url : String)
    (p : URLParts) (hp0 : pyUrlparseL (pyLowerL url.toList) = .ok p)
    (hs : knownShorteners.any (fun s => pySubstr s (String.mk p.netloc)) = true) :
    looks_like_affiliate_url kws url = .ok true ∧
    looks_like_affiliate_url [] "http://example.com/about" = .ok false := by
  refine ⟨?_, by decide⟩
  unfold looks_like_affiliate_url
  rw [hp0]
  dsimp only
  rw [if_pos hs]

/-- Claim C2 (witness): the amended classifier theorem applied to
`http://bit.ly/abc`. -/
theorem affiliate_classifier_witness :
    (pyUrlparseL (pyLowerL (String.toList "http://bit.ly/abc")) =
      .ok ⟨String.toList "http", String.toList "bit.ly", String.toList "/abc",
           [], [], []⟩ ∧
     knownShorteners.any
       (fun s => pySubstr s (String.mk (String.toList "bit.ly"))) = true) ∧
    (looks_like_affiliate_url [] "http://bit.ly/abc" = .ok true ∧
     looks_like_affiliate_url [] "http://example.com/about" = .ok false) :=
  ⟨⟨by decide, by decide⟩,
   affiliate_classifier_amended [] "http://bit.ly/abc"
     ⟨String.toList "http", String.toList "bit.ly", String.toList "/abc",
      [], [], []⟩
     (by decide) (by decide)⟩

/-- Claim C2 (counterexample): `http://tot.com/x` has a host that neither
equals nor ends in any listed shortener domain and fires none of the
decision rules as the spec words them (`is_candidate_spec`), yet the
source classifies it `True` because `"t.co" in "tot.com"` holds as a
substring test. -/
theorem affiliate_classifier_counterexample :
    looks_like_affiliate_url [] "http://tot.com/x" = .ok true ∧
    is_candidate_spec "http://tot.com/x" = false := by
  exact ⟨by decide, by decide⟩

/-- Claim C3 (confirmed): provided the scope test rejects the empty string
(as the source's host/path test does), every URL enters the queue at most
once over the whole crawl — the ghost enqueue history stays duplicate-free —
and no URL is visited twice. -/
theorem queue_once_invariant (cfg : Cfg) (env : Env) (n : Nat)
    (hsc : env.inScope "" = false) :
    (crawlRun cfg env n).enqueuedHistory.Nodup ∧
    (crawlRun cfg env n).visited.Nodup ∧ (crawlRun cfg env n).queue.Nodup := by
  obtain ⟨h1, h2, h3, _, _, _⟩ := crawlRun_inv cfg env hsc n
  exact ⟨h1, h2, h3⟩

/-- Claim C3 (witness): the queue-once invariant evaluated on a concrete
two-link crawl. -/
theorem queue_once_witness :
    env3.inScope "" = false ∧
    ((crawlRun cfg4 env3 3).enqueuedHistory.Nodup ∧
     (crawlRun cfg4 env3 3).visited.Nodup ∧ (crawlRun cfg4 env3 3).queue.Nodup) :=
  ⟨by decide, queue_once_invariant cfg4 env3 3 (by decide)⟩

/-- Claim C4 (amended): the crawl loop never exceeds the `max_pages` budget
and always reaches a fixed point on which the loop guard reports done. -/
theorem crawl_budget_amended (cfg : Cfg) (env : Env) :
    (∀ n, (crawlRun cfg env n).pagesCrawled ≤ cfg.maxPages) ∧
    ∃ n, crawlDone cfg (crawlRun cfg env n) = true ∧
      crawlStep cfg env (crawlRun cfg env n) = crawlRun cfg env n := by
  refine ⟨crawlRun_pages_le cfg env, ?_⟩
  obtain ⟨n, hn⟩ := crawl_term_aux cfg env cfg.maxPages
    (initState cfg).queue.length (initState cfg) (Nat.sub_le _ _) (Nat.le_refl _)
  exact ⟨n, hn, crawlDone_step_id cfg env _ hn⟩

/-- Claim C4 (counterexample): with `max_pages = 1` and a seed page holding
ten in-scope links, exactly one page is processed and the budget guard
fires, but the ten unprocessed links are NOT reflected in the queue state:
the enqueue condition `pages_crawled < max_pages` already fails, so the
final queue is empty (the links survive only in `internal_links`). -/
theorem crawl_budget_counterexample :
    (crawlRun cfg4 env4 1).pagesCrawled = 1 ∧
    (crawlRun cfg4 env4 1).visited = ["http://seed.example/start"] ∧
    (crawlRun cfg4 env4 1).internalLinks.length = 10 ∧
    (crawlRun cfg4 env4 1).queue = [] ∧
    crawlDone cfg4 (crawlRun cfg4 env4 1) = true := by
  exact ⟨by decide, by decide, by decide, by decide, by decide⟩

/-- Claim C5 (confirmed): every record ever appended to the result list has
a non-empty matched-keyword list, for every configuration, environment and
number of loop iterations. -/
theorem results_keywords_nonempty (cfg : Cfg) (env : Env) (n : Nat) :
    ((crawlRun cfg env n).results.all fun r => !r.keywords.isEmpty) = true := by
  have h := crawlRun_results cfg env n
  rw [List.all_eq_true] at h ⊢
  intro r hr
  have h2 := h r hr
  unfold goodResult at h2
  rw [Bool.and_eq_true] at h2
  exact h2.1

/-- Claim C6 (amended): every emitted record's `location_type` is one of
exactly three strings — but the third is `'content'`, not the
`'page_content'` the spec's enum lists (`'page_content'` appears only in
the `element` field). -/
theorem results_location_amended (cfg : Cfg) (env : Env) (n : Nat) :
    ((crawlRun cfg env n).results.all fun r =>
      r.location_type == "direct_url" || r.location_type == "redirected_url" ||
      r.location_type == "content") = true := by
  have h := crawlRun_results cfg env n
  rw [List.all_eq_true] at h ⊢
  intro r hr
  have h2 := h r hr
  unfold goodResult at h2
  rw [Bool.and_eq_true] at h2
  exact h2.2

/-- Claim C6 (counterexample): a crawl whose seed page's text matches a
keyword emits a record with `location_type = "content"`, which is outside
the spec's `direct_url | redirected_url | page_content` enum. -/
theorem results_location_counterexample :
    (crawlRun cfg6 env6 1).results =
      [⟨"http://seed.example/start", "http://seed.example/start", ["guide"],
        "content", "page_content", "text", "Travel guide page"⟩] ∧
    ∀ r ∈ (crawlRun cfg6 env6 1).results, r.location_type ≠ "page_content" := by
  exact ⟨by decide, by decide⟩

/-- Claim C7 (confirmed): the keyword matcher returns exactly the keywords
whose lower-cased form occurs as a substring of the lower-cased text, as an
order-preserving sublist of the caller's list; absent (`none`) and empty
text give the empty list, and the concrete example from the spec holds. -/
theorem matched_keywords_spec (kws : List String) (t : String) :
    (∀ kw, kw ∈ get_matched_keywords kws (some t) ↔
      kw ∈ kws ∧ t ≠ "" ∧ (pyLower kw).toList <:+: (pyLower t).toList) ∧
    (get_matched_keywords kws (some t)).Sublist kws ∧
    get_matched_keywords kws none = [] ∧
    get_matched_keywords kws (some "") = [] ∧
    get_matched_keywords ["gowithguide"] (some "Visit GoWithGuide today") =
      ["gowithguide"] := by
  refine ⟨?_, ?_, rfl, rfl, by decide⟩
  · intro kw
    unfold get_matched_keywords
    dsimp only
    by_cases ht : t = ""
    · rw [if_pos ht]
      simp [ht]
    · rw [if_neg ht]
      simp [List.mem_filter, pySubstr, ht]
  · unfold get_matched_keywords
    dsimp only
    by_cases ht : t = ""
    · rw [if_pos ht]
      exact List.nil_sublist kws
    · rw [if_neg ht]
      exact List.filter_sublist kws

/-- Claim C8 (amended): `normalize_url` output never contains a `#`; and it
is a fixed point of `normalize_url` — so normalization is idempotent —
whenever the reassembled fragment-free URL does not end in `/` (otherwise
the trailing-slash strip changes the string again) and the parse did not
leave an empty netloc next to a glued path starting `//`. -/
theorem normalize_idem_amended (u v : String) (p : URLParts)
    (hparse : pyUrlparseL u.toList = .ok p)
    (hnorm : normalize_url u = .ok v)
    (hnt : (pyUrlunparseL (clearFragment p)).getLast? ≠ some '/')
    (hss : ¬(p.netloc = [] ∧ (glueParams (clearFragment p)).take 2 = ['/', '/'])) :
    normalize_url v = .ok v ∧ '#' ∉ v.toList := by
  obtain ⟨p2, hn1, hok, hunp, hf2, hq2, hs2, hfix⟩ :=
    normalize_stable_core u p hparse hnt hss
  have hv : v = String.mk (pyUrlunparseL (clearFragment p)) :=
    Except.ok.inj (hnorm.symm.trans hn1)
  subst hv
  refine ⟨hfix, ?_⟩
  show '#' ∉ pyUrlunparseL (clearFragment p)
  exact unparse_no_hash (parseShape_clearFragment (parseShape_of_ok hparse)) rfl

/-- Claim C8 (witness): idempotence and hash-freeness evaluated on
`http://a/b#f`. -/
theorem normalize_idem_witness :
    (pyUrlparseL (String.toList "http://a/b#f") =
      .ok ⟨String.toList "http", String.toList "a", String.toList "/b", [], [],
           String.toList "f"⟩ ∧
     normalize_url "http://a/b#f" = .ok "http://a/b") ∧
    (normalize_url "http://a/b" = .ok "http://a/b" ∧
     '#' ∉ ("http://a/b" : String).toList) :=
  ⟨⟨by decide, by decide⟩,
   normalize_idem_amended "http://a/b#f" "http://a/b"
     ⟨String.toList "http", String.toList "a", String.toList "/b", [], [],
      String.toList "f"⟩
     (by decide) (by decide) (by decide) (by decide)⟩

/-- Claim C8 (counterexample): normalization is not idempotent —
`normalize("http://a//")` gives `http://a/`, which normalizes again to
`http://a`. -/
theorem normalize_idem_counterexample :
    normalize_url "http://a//" = .ok "http://a/" ∧
    normalize_url "http://a/" = .ok "http://a" ∧
    ("http://a" : String) ≠ "http://a/" := by
  exact ⟨by decide, by decide, by decide⟩

/-- Claim C9 (amended): `normalize_url` is not silent on every input: it
propagates `urlparse`'s `ValueError` to its caller.  On ASCII input — where
CPython's `_checknetloc` NFKC validation is a no-op, the scope of this
model — the two bracketed-netloc validation errors are the only failures;
non-ASCII netlocs can additionally raise through `_checknetloc`, which is
outside the model, hence the ASCII hypothesis. -/
theorem normalize_total_amended (u : String)
    (ha : ∀ c ∈ u.toList, c.toNat < 128) :
    (∃ v, normalize_url u = .ok v) ∨
    normalize_url u = .error "Invalid IPv6 URL" ∨
    normalize_url u = .error "invalid bracketed host" := by
  unfold normalize_url
  rcases hp : pyUrlparseL u.toList with e | p
  · dsimp only
    rcases urlparse_err hp with rfl | rfl
    · right
      left
      rfl
    · right
      right
      rfl
  · dsimp only
    left
    exact ⟨_, rfl⟩

/-- Claim C9 (witness): the failure classification evaluated on a concrete
ASCII URL. -/
theorem normalize_total_witness :
    (∀ c ∈ ("http://ok.example/a" : String).toList, c.toNat < 128) ∧
    ((∃ v, normalize_url "http://ok.example/a" = .ok v) ∨
     normalize_url "http://ok.example/a" = .error "Invalid IPv6 URL" ∨
     normalize_url "http://ok.example/a" = .error "invalid bracketed host") :=
  ⟨by decide, normalize_total_amended "http://ok.example/a" (by decide)⟩

/-- Claim C9 (counterexample): `normalize_url` raises on `http://[a` — the
`ValueError("Invalid IPv6 URL")` of `urlsplit` propagates, since
`normalize_url` has no exception handler. -/
theorem normalize_total_counterexample :
    normalize_url "http://[a" = .error "Invalid IPv6 URL" := by decide

/-- Claim C10 (amended): when the reassembled fragment-free URL does not end
in `/` and the empty-netloc/`//`-glue corner is excluded, the normalized URL
re-parses with the query and scheme preserved verbatim and an empty
fragment, so the visited/queue dedup identity distinguishes URLs that differ
only in their query strings. -/
theorem normalize_query_amended (u : String) (p : URLParts)
    (hparse : pyUrlparseL u.toList = .ok p)
    (hnt : (pyUrlunparseL (clearFragment p)).getLast? ≠ some '/')
    (hss : ¬(p.netloc = [] ∧ (glueParams (clearFragment p)).take 2 = ['/', '/'])) :
    ∃ v p2, normalize_url u = .ok v ∧ pyUrlparseL v.toList = .ok p2 ∧
      p2.query = p.query ∧ p2.scheme = p.scheme ∧ p2.fragment = [] := by
  obtain ⟨p2, hn1, hok, hunp, hf2, hq2, hs2, hfix⟩ :=
    normalize_stable_core u p hparse hnt hss
  exact ⟨String.mk (pyUrlunparseL (clearFragment p)), p2, hn1, hok, hq2, hs2, hf2⟩

/-- Claim C10 (witness): query preservation evaluated on
`http://a/b?x=1`. -/
theorem normalize_query_witness :
    pyUrlparseL (String.toList "http://a/b?x=1") =
      .ok ⟨String.toList "http", String.toList "a", String.toList "/b", [],
           String.toList "x=1", []⟩ ∧
    ∃ v p2, normalize_url "http://a/b?x=1" = .ok v ∧
      pyUrlparseL v.toList = .ok p2 ∧
      p2.query = String.toList "x=1" ∧ p2.scheme = String.toList "http" ∧
      p2.fragment = [] :=
  ⟨by decide,
   normalize_query_amended "http://a/b?x=1"
     ⟨String.toList "http", String.toList "a", String.toList "/b", [],
      String.toList "x=1", []⟩ (by decide) (by decide) (by decide)⟩

/-- Claim C10 (counterexample): the query is not always preserved — for
`http://a/p?x=/` the reassembled URL ends in `/`, the trailing-slash strip
eats the query's last character, and the result re-parses with query `x=`
instead of `x=/`. -/
theorem normalize_query_counterexample :
    normalize_url "http://a/p?x=/" = .ok "http://a/p?x=" ∧
    pyUrlparseL (String.toList "http://a/p?x=/") =
      .ok ⟨String.toList "http", String.toList "a", String.toList "/p", [],
           String.toList "x=/", []⟩ ∧
    pyUrlparseL (String.toList "http://a/p?x=") =
      .ok ⟨String.toList "http", String.toList "a", String.toList "/p", [],
           String.toList "x=", []⟩ ∧
    String.toList "x=" ≠ String.toList "x=/" := by
  exact ⟨by decide, by decide, by decide, by decide⟩

end SocialCrawler
